import Mathlib

set_option maxHeartbeats 1600000

/-!
Verification development for the RoutePilot routing/supervision core.

Each TypeScript function named by the claims is translated into an
executable Lean definition operating on explicit state (lists standing for
the SQLite tables, parameters standing for ambient environment variables
and the wall clock).  JavaScript numbers that are used as integers are
modelled as `Int`/`Nat`; JSON documents are modelled by the `Json`
inductive below with numbers kept exactly as mantissa × 10^exponent.
-/

namespace RoutePilot

/-! ### Basic list-shape predicates

Contiguity predicates used throughout (we avoid the library's own names on
purpose so every property is spelled out in this file). -/

/-- `ListPre p l`: `p` is an initial segment of `l`. -/
def ListPre (p l : List Char) : Prop := ∃ t, p ++ t = l

/-- `ListSuf s l`: `s` is a final segment of `l`. -/
def ListSuf (s l : List Char) : Prop := ∃ h, h ++ s = l

/-- `ListSub m l`: `m` occurs contiguously inside `l`. -/
def ListSub (m l : List Char) : Prop := ∃ u v, u ++ m ++ v = l

/-! ### JSON values

Model of the JSON documents handled by `JSON.parse` / `JSON.stringify`
(used by `safeLastJson` in `util/json.ts` and by `writeReceipt` in
`receipts.ts`).  Object members keep their textual order; duplicate keys
are kept as parsed. -/

/-- A JSON number, exactly: value = `mantissa * 10 ^ exp10`. -/
structure JsonNumber where
  mantissa : Int
  exp10 : Int
deriving Repr, DecidableEq

inductive Json where
  | null
  | bool (b : Bool)
  | num (n : JsonNumber)
  | str (s : String)
  | arr (items : List Json)
  | obj (entries : List (String × Json))
deriving Repr

/-- Whitespace accepted between JSON tokens (`JSON.parse` accepts exactly
space, tab, line feed and carriage return). -/
def jsonWs (c : Char) : Bool := c = ' ' || c = '\t' || c = '\n' || c = '\r'

def skipWs : List Char → List Char
  | [] => []
  | c :: cs => if jsonWs c then skipWs cs else c :: cs

def isDigitCh (c : Char) : Bool := '0' ≤ c && c ≤ '9'

def digitVal (c : Char) : Nat := c.toNat - '0'.toNat

def takeDigits : List Char → List Char × List Char
  | [] => ([], [])
  | c :: cs =>
    if isDigitCh c then
      let (ds, r) := takeDigits cs
      (c :: ds, r)
    else ([], c :: cs)

def digitsToNat (ds : List Char) : Nat :=
  ds.foldl (fun a c => a * 10 + digitVal c) 0

def hexVal (c : Char) : Option Nat :=
  let n := c.toNat
  if 48 ≤ n && n ≤ 57 then some (n - 48)
  else if 97 ≤ n && n ≤ 102 then some (n - 97 + 10)
  else if 65 ≤ n && n ≤ 70 then some (n - 65 + 10)
  else none

def unescapeCh : Char → Option Char
  | '"' => some '"'
  | '\\' => some '\\'
  | '/' => some '/'
  | 'b' => some (Char.ofNat 8)
  | 'f' => some (Char.ofNat 12)
  | 'n' => some '\n'
  | 'r' => some '\r'
  | 't' => some '\t'
  | _ => none

/-- Body of a JSON string after the opening quote.  Raw control characters
are rejected, escapes are decoded (`\uXXXX` as a single scalar; we do not
model UTF-16 surrogate pairing). -/
def parseStringBody (acc : List Char) : List Char → Option (String × List Char)
  | '"' :: rest => some (String.mk acc.reverse, rest)
  | '\\' :: 'u' :: a :: b :: c :: d :: rest =>
    match hexVal a, hexVal b, hexVal c, hexVal d with
    | some va, some vb, some vc, some vd =>
      parseStringBody (Char.ofNat (((va * 16 + vb) * 16 + vc) * 16 + vd) :: acc) rest
    | _, _, _, _ => none
  | '\\' :: e :: rest =>
    match unescapeCh e with
    | some ch => parseStringBody (ch :: acc) rest
    | none => none
  | c :: rest =>
    if c.toNat < 32 then none else parseStringBody (c :: acc) rest
  | [] => none

/-- JSON number literal: `-? int frac? exp?`, rejecting leading zeros,
bare dots and empty exponents, as `JSON.parse` does. -/
def parseNumber (cs : List Char) : Option (JsonNumber × List Char) :=
  let signed : Bool × List Char := match cs with
    | '-' :: r => (true, r)
    | _ => (false, cs)
  let neg := signed.1
  let cs1 := signed.2
  let (ids, cs2) := takeDigits cs1
  match ids with
  | [] => none
  | i0 :: irest =>
    if i0 = '0' && !irest.isEmpty then none
    else
      let fracStep : Option (List Char × List Char) := match cs2 with
        | '.' :: r =>
          let (fds, r') := takeDigits r
          if fds.isEmpty then none else some (fds, r')
        | _ => some ([], cs2)
      match fracStep with
      | none => none
      | some (fds, cs3) =>
        let expStep : Option (Int × List Char) := match cs3 with
          | 'e' :: r | 'E' :: r =>
            let (esign, r1) := match r with
              | '+' :: rr => ((1 : Int), rr)
              | '-' :: rr => ((-1 : Int), rr)
              | _ => ((1 : Int), r)
            let (eds, r2) := takeDigits r1
            if eds.isEmpty then none else some (esign * (digitsToNat eds : Int), r2)
          | _ => some (0, cs3)
        match expStep with
        | none => none
        | some (e, cs4) =>
          let mag : Int := (digitsToNat (ids ++ fds) : Int)
          some ({ mantissa := if neg then -mag else mag,
                  exp10 := e - (fds.length : Int) }, cs4)

/-- Parsing mode for the fuel-indexed JSON value parser. -/
inductive PMode where
  | value
  | objBody
  | members (acc : List (String × Json))
  | arrBody
  | elems (acc : List Json)

/-- Fuel-indexed recursive-descent JSON parser (structural on the fuel so
that concrete runs reduce definitionally). -/
def parseJ : Nat → PMode → List Char → Option (Json × List Char)
  | 0, _, _ => none
  | f + 1, m, cs =>
    match m with
    | .value =>
      match skipWs cs with
      | '{' :: rest => parseJ f .objBody rest
      | '[' :: rest => parseJ f .arrBody rest
      | '"' :: rest => (parseStringBody [] rest).map (fun p => (Json.str p.1, p.2))
      | 'n' :: 'u' :: 'l' :: 'l' :: rest => some (Json.null, rest)
      | 't' :: 'r' :: 'u' :: 'e' :: rest => some (Json.bool true, rest)
      | 'f' :: 'a' :: 'l' :: 's' :: 'e' :: rest => some (Json.bool false, rest)
      | rest => (parseNumber rest).map (fun p => (Json.num p.1, p.2))
    | .objBody =>
      match skipWs cs with
      | '}' :: rest => some (Json.obj [], rest)
      | rest => parseJ f (.members []) rest
    | .members acc =>
      match skipWs cs with
      | '"' :: rest =>
        match parseStringBody [] rest with
        | none => none
        | some (k, r1) =>
          match skipWs r1 with
          | ':' :: r2 =>
            match parseJ f .value r2 with
            | none => none
            | some (v, r3) =>
              match skipWs r3 with
              | ',' :: r4 => parseJ f (.members (acc ++ [(k, v)])) r4
              | '}' :: r4 => some (Json.obj (acc ++ [(k, v)]), r4)
              | _ => none
          | _ => none
      | _ => none
    | .arrBody =>
      match skipWs cs with
      | ']' :: rest => some (Json.arr [], rest)
      | rest => parseJ f (.elems []) rest
    | .elems acc =>
      match parseJ f .value cs with
      | none => none
      | some (v, r) =>
        match skipWs r with
        | ',' :: r2 => parseJ f (.elems (acc ++ [v])) r2
        | ']' :: r2 => some (Json.arr (acc ++ [v]), r2)
        | _ => none

/-- `JSON.parse` on a character list: one value, then only whitespace. -/
def jsonParseL (cs : List Char) : Option Json :=
  match parseJ (4 * cs.length + 16) .value cs with
  | some (v, rest) => if (skipWs rest).isEmpty then some v else none
  | none => none

/-! ### safeLastJson (src/util/json.ts, claim C2)

The source scans the buffer once, tracking a signed brace depth and the
index of the last `{` seen at depth 0; at every `}` that returns the depth
to 0 it tries `JSON.parse` on the slice and returns the first success;
after the scan it tries the whole buffer, then throws. -/

/-- One step of the scan: faithful translation of the `for` loop in
`safeLastJson` (`text` is the whole buffer, `i` the current index,
`depth` the signed brace counter, `start` the pending top-level `{`). -/
def sljScan (text : List Char) : List Char → Nat → Int → Option Nat → Except String Json
  | [], _, _, _ =>
    match jsonParseL text with
    | some v => .ok v
    | none => .error "Failed to extract JSON from text"
  | c :: rest, i, depth, start =>
    if c = '{' then
      sljScan text rest (i + 1) (depth + 1) (if depth = 0 then some i else start)
    else if c = '}' then
      let depth' := depth - 1
      match start with
      | some s =>
        if depth' = 0 then
          match jsonParseL ((text.drop s).take (i + 1 - s)) with
          | some v => .ok v
          | none => sljScan text rest (i + 1) depth' start
        else sljScan text rest (i + 1) depth' start
      | none => sljScan text rest (i + 1) depth' start
    else
      sljScan text rest (i + 1) depth start

/-- `safeLastJson` from `src/util/hash.ts` lines 9–19 (the `util/json.ts`
export used by the sub-agent controller). -/
def safeLastJson (text : String) : Except String Json :=
  sljScan text.data text.data 0 0 none

/-- The candidate slices the scan would offer to `JSON.parse`, in scan
order (same state machine as `sljScan`, collecting instead of returning). -/
def sljCandidates (text : List Char) : List Char → Nat → Int → Option Nat → List (List Char)
  | [], _, _, _ => []
  | c :: rest, i, depth, start =>
    if c = '{' then
      sljCandidates text rest (i + 1) (depth + 1) (if depth = 0 then some i else start)
    else if c = '}' then
      let depth' := depth - 1
      match start with
      | some s =>
        if depth' = 0 then
          ((text.drop s).take (i + 1 - s)) :: sljCandidates text rest (i + 1) depth' start
        else sljCandidates text rest (i + 1) depth' start
      | none => sljCandidates text rest (i + 1) depth' start
    else
      sljCandidates text rest (i + 1) depth start

/-- Spec-side description of the behaviour the code implements: the FIRST
candidate that parses; if none parses, the whole buffer; else an error. -/
def firstBalancedJson (text : String) : Except String Json :=
  match ((sljCandidates text.data text.data 0 0 none).filterMap jsonParseL).head? with
  | some v => .ok v
  | none =>
    match jsonParseL text.data with
    | some v => .ok v
    | none => .error "Failed to extract JSON from text"

/-- The claim's words: take the LAST successful parse among the candidate
closing positions (written from the spec sentence, for comparison). -/
def lastBalancedJson (text : String) : Option Json :=
  ((sljCandidates text.data text.data 0 0 none).filterMap jsonParseL).getLast?

/-! ### Quota enforcer (src/quotas.ts, claims C3 and C5)

The `quotas_daily` table is an association list keyed by `(user_ref, day)`
(the primary key makes the key unique).  `dayInTZ` formats the current
wall-clock date in an IANA timezone through the JS `Intl` machinery; it is
environmental, so the embedding takes it as an explicit function
parameter `dayFn`. -/

structure QuotaError where
  kind : String
  limit : Option Int
  whenDay : Option String
deriving Repr, DecidableEq

def QuotaDB := List ((String × String) × Int)

def quotaLookup : List ((String × String) × Int) → String × String → Option Int
  | [], _ => none
  | (k', v) :: rest, k => if k' = k then some v else quotaLookup rest k

/-- `UPDATE quotas_daily SET tokens=? WHERE user_ref=? AND day=?`: replace
the value at the (unique) matching key. -/
def quotaUpdate : List ((String × String) × Int) → String × String → Int →
    List ((String × String) × Int)
  | [], _, _ => []
  | (k', v) :: rest, k, nv =>
    if k' = k then (k', nv) :: rest else (k', v) :: quotaUpdate rest k nv

/-- `addDailyTokens(userRef, tokens, dailyCap, tz)` from `src/quotas.ts`:
compute the day key, read the row, fail without writing when the new total
would exceed the cap, otherwise update or insert the new total. -/
def addDailyTokens (dayFn : String → String) (db : List ((String × String) × Int))
    (userRef : String) (tokens : Int) (dailyCap : Int) (tz : String) :
    Except QuotaError (List ((String × String) × Int)) :=
  let day := dayFn tz
  let existing := (quotaLookup db (userRef, day)).getD 0
  let newTokens := existing + tokens
  if dailyCap < newTokens then
    .error { kind := "daily", limit := some dailyCap, whenDay := some day }
  else
    match quotaLookup db (userRef, day) with
    | some _ => .ok (quotaUpdate db (userRef, day) newTokens)
    | none => .ok (db ++ [((userRef, day), tokens)])

/-- A sequence of `addDailyTokens` calls for one user; `none` as soon as a
call raises. -/
def runDailyTokens (dayFn : String → String) (db : List ((String × String) × Int))
    (userRef : String) (dailyCap : Int) (tz : String) :
    List Int → Option (List ((String × String) × Int))
  | [] => some db
  | t :: ts =>
    match addDailyTokens dayFn db userRef t dailyCap tz with
    | .ok db' => runDailyTokens dayFn db' userRef dailyCap tz ts
    | .error _ => none

/-! ### Ledger rows and the tail of the inference driver (src/infer.ts, claim C5) -/

structure TraceRow where
  id : String
  user_ref : Option String
  policy : String
  route_primary : String
  route_final : String
  latency_ms : Int
  tokens : Int
  cost_usd : JsonNumber
deriving Repr, DecidableEq

structure ReceiptRow where
  id : String
  ts : String
  policy : String
  route_primary : String
  route_final : String
  fallback_count : Int
  latency_ms : Int
  first_token_ms : Option Int
  prompt_hash : Option String
  policy_hash : Option String
  task_id : Option String
  parent_id : Option String
  reasons : Option String
  prompt_tokens : Int
  completion_tokens : Int
  cost_usd : JsonNumber
  signature : String
  payload_json : String
  model_path : Option String
deriving Repr, DecidableEq

/-- The three tables the inference driver touches, newest row first. -/
structure LedgerState where
  receipts : List ReceiptRow
  quotas : List ((String × String) × Int)
  traces : List TraceRow
deriving Repr, DecidableEq

def dbWriteReceipt (st : LedgerState) (r : ReceiptRow) : LedgerState :=
  { st with receipts := r :: st.receipts }

def dbInsertTrace (st : LedgerState) (tr : TraceRow) : LedgerState :=
  { st with traces := tr :: st.traces }

/-- Ledger phase of `infer` (src/infer.ts lines 86–124), in source order:
write the receipt, then add daily tokens (which may raise), then insert
the trace row.  A raised `QuotaError` aborts the function, so the trace
insert does not run and the receipt write is not undone. -/
def inferFinish (dayFn : String → String) (st : LedgerState) (receipt : ReceiptRow)
    (userRef : String) (tokensUsed dailyCap : Int) (tz : String) (tr : TraceRow) :
    LedgerState × Option QuotaError :=
  let st1 := dbWriteReceipt st receipt
  match addDailyTokens dayFn st1.quotas userRef tokensUsed dailyCap tz with
  | .error e => (st1, some e)
  | .ok q => (dbInsertTrace { st1 with quotas := q } tr, none)

/-! ### Failure-reason classification (router, src/router.ts lines 112–126, claim C4) -/

def listStarts : List Char → List Char → Bool
  | _, [] => true
  | [], _ :: _ => false
  | h :: hs, p :: ps => h = p && listStarts hs ps

def listHas (pat : List Char) : List Char → Bool
  | [] => listStarts [] pat
  | c :: t => listStarts (c :: t) pat || listHas pat t

/-- The test `/aborted|AbortError/i.test(message)`: the message contains
`aborted` or `aborterror` case-insensitively. -/
def abortRegexMatches (message : String) : Bool :=
  let low := message.data.map Char.toLower
  listHas "aborted".data low || listHas "aborterror".data low

/-- Reason classification in the router's catch block: an error carrying a
numeric HTTP status is classified by status; otherwise timer cancellation
or an abort-looking message gives `stall`; otherwise `error`. -/
def classifyReason (status : Option Int) (abortedByTimer : Bool) (message : String) : String :=
  match status with
  | some s =>
    if s = 429 then "rate_limit"
    else if 500 ≤ s then "5xx"
    else "http_" ++ toString s
  | none =>
    if abortedByTimer || abortRegexMatches message then "stall" else "error"

/-- Claim C4 read literally, cases in the order the claim lists them:
`stall` when cancelled by the stall timer, then the status cases, and
`error` in every remaining case. -/
def claimReasonC4 (status : Option Int) (abortedByTimer : Bool) : String :=
  if abortedByTimer then "stall"
  else
    match status with
    | some s =>
      if s = 429 then "rate_limit"
      else if 500 ≤ s then "5xx"
      else "http_" ++ toString s
    | none => "error"

/-! ### Trace statistics and the route ladder (src/db.ts, router, claims C1 and C7)

The `traces` table is a list ordered newest first, so `ORDER BY ts DESC
LIMIT n` is `take n` of the filtered list. -/

def tracesFor (db : List TraceRow) (model : String) : List TraceRow :=
  db.filter (fun t => t.route_final = model)

def insertSorted (x : Int) : List Int → List Int
  | [] => [x]
  | y :: ys => if x ≤ y then x :: y :: ys else y :: insertSorted x ys

/-- `rows.sort((a, b) => a - b)`: ascending numeric sort. -/
def sortAsc : List Int → List Int
  | [] => []
  | x :: xs => insertSorted x (sortAsc xs)

/-- `p95LatencyFor(model, n)` from `src/db.ts` lines 89–98.  The JS index
`Math.floor(0.95 * (len - 1))` equals `19 * (len - 1) / 20` in exact
arithmetic, and the double-precision product never crosses an integer
below the exact value for these magnitudes, so natural division is the
faithful model; `arr[i] ?? null` is `List.get?`. -/
def p95LatencyFor (db : List TraceRow) (model : String) (n : Nat) : Option Int :=
  let rows := ((tracesFor db model).take n).map (fun t => t.latency_ms)
  match rows with
  | [] => none
  | _ :: _ =>
    let arr := sortAsc rows
    arr.get? ((19 * (arr.length - 1)) / 20)

/-- Modelled from the spec: `recentSampleCount(model, n)` is exported by
the ledger module but its implementation file is not in the sources (only
its callers and its tests); per §4.1 of the spec it is the number of
traces in the recent window, i.e. the count of the at-most-`n` most recent
traces for the model, which is what its tests pin down
(`LIMIT 5` of 7 rows gives 5; window 10 of 7 rows gives 7). -/
def recentSampleCount (db : List TraceRow) (model : String) (n : Nat) : Nat :=
  ((tracesFor db model).take n).length

/-- `fastestByRecentP95(models, n)` from `src/db.ts` lines 100–108: fold
over the models keeping the first strict minimum of the per-model p95. -/
def fastestByRecentP95 (db : List TraceRow) (models : List String) (n : Nat) : Option String :=
  (models.foldl
    (fun best m =>
      match p95LatencyFor db m n with
      | none => best
      | some p =>
        match best with
        | none => some (m, p)
        | some (bm, bp) => if p < bp then some (m, p) else some (bm, bp))
    none).map (fun q => q.1)

structure RoutePlan where
  primary : List String
  backups : List String
deriving Repr, DecidableEq

/-- Route-ladder construction at the head of `runWithFallback`
(src/router.ts lines 27–35): pre-pick the fastest backup only when the
primary's recent p95 exists, the sample count is at least 10, the p95
exceeds the target, and some backup has an observed p95. -/
def buildLadder (db : List TraceRow) (plan : RoutePlan) (targetP95 : Int)
    (p95WindowN : Nat) : List String :=
  let primaryModel := plan.primary.headD ""
  let recentP95 := p95LatencyFor db primaryModel p95WindowN
  let sampleCount := recentSampleCount db primaryModel p95WindowN
  let fastestBackup := fastestByRecentP95 db plan.backups p95WindowN
  match recentP95, fastestBackup with
  | some p, some fb =>
    if 10 ≤ sampleCount ∧ targetP95 < p then
      fb :: plan.primary ++ plan.backups.filter (fun b => b ≠ fb)
    else plan.primary ++ plan.backups
  | _, _ => plan.primary ++ plan.backups

def minList : List Int → Option Int
  | [] => none
  | x :: xs =>
    match minList xs with
    | none => some x
    | some m => some (min x m)

/-- First element achieving the minimum of the second components (the
claim's "lowest observed p95, ties broken by earliest position"). -/
def argminFirst (l : List (String × Int)) : Option (String × Int) :=
  match minList (l.map (fun q => q.2)) with
  | none => none
  | some m => l.find? (fun q => q.2 = m)

/-- Claim-side description of the pre-pick choice: among the backups that
have an observed p95, the one with the lowest p95, earliest first. -/
def claimFastestBackup (db : List TraceRow) (models : List String) (n : Nat) : Option String :=
  let withP := models.filterMap (fun m => (p95LatencyFor db m n).map (fun p => (m, p)))
  (argminFirst withP).map (fun q => q.1)

/-- Claim C1 as amended, written from its words: reorder exactly when the
primary p95 exists, the sample count is at least 10, the p95 exceeds the
target, and a backup with an observed p95 exists; otherwise the ladder is
unchanged. -/
def claimLadderC1 (db : List TraceRow) (plan : RoutePlan) (targetP95 : Int)
    (p95WindowN : Nat) : List String :=
  match p95LatencyFor db (plan.primary.headD "") p95WindowN with
  | some p =>
    if 10 ≤ recentSampleCount db (plan.primary.headD "") p95WindowN ∧ targetP95 < p then
      match claimFastestBackup db plan.backups p95WindowN with
      | some fb => fb :: plan.primary ++ plan.backups.filter (fun b => b ≠ fb)
      | none => plan.primary ++ plan.backups
    else plan.primary ++ plan.backups
  | none => plan.primary ++ plan.backups

/-- Claim-side p95 (the spec's formula): latencies of the `min(N, n)` most
recent traces, sorted ascending, indexed at `floor(0.95 * (min(N, n) - 1))`. -/
def p95SpecC7 (db : List TraceRow) (model : String) (n : Nat) : Option Int :=
  let available := tracesFor db model
  let k := min n available.length
  if k = 0 then none
  else
    let sorted := sortAsc ((available.take k).map (fun t => t.latency_ms))
    sorted.get? ((19 * (k - 1)) / 20)

/-! ### Token ceiling (src/infer.ts, claim C10) -/

/-- `Math.min(policy.objectives.max_tokens ?? 1024, 2048)`: the
`max_tokens` argument of the main router call in `infer`. -/
def effectiveMaxTokens (policyMaxTokens : Option Nat) : Nat :=
  min (policyMaxTokens.getD 1024) 2048

/-- `1 + Math.min(policy.objectives.max_tokens ?? 1024, 2048)`: the
`max_tokens` argument of the optional shadow router call in `infer`. -/
def shadowMaxTokens (policyMaxTokens : Option Nat) : Nat :=
  1 + effectiveMaxTokens policyMaxTokens

structure ChatParams where
  model : String
  max_tokens : Nat
  stream : Bool
deriving Repr, DecidableEq

/-- The per-attempt gateway call record built in the router loop:
`{ model, messages, max_tokens: maxTokens, stream: true }` (messages are
not modelled). -/
def mkChatCall (model : String) (maxTokens : Nat) : ChatParams :=
  { model := model, max_tokens := maxTokens, stream := true }

/-! ### http_fetch pre-flight (subagents/controller.ts lines 140–170, claim C9) -/

/-- `parseInt(s, 10)`: skip leading whitespace, optional sign, then
leading decimal digits; `NaN` (here `none`) when no digit follows. -/
def parseIntJS (s : String) : Option Int :=
  let cs := s.data.dropWhile (fun c => jsonWs c)
  let (neg, cs1) := match cs with
    | '-' :: r => (true, r)
    | '+' :: r => (false, r)
    | _ => (false, cs)
  let (ds, _) := takeDigits cs1
  match ds with
  | [] => none
  | _ :: _ => some (if neg then -(digitsToNat ds : Int) else (digitsToNat ds : Int))

/-- `HTTP_FETCH_MAX` resolution: `parseInt(env || '3', 10)` guarded by
`Number.isFinite(envMax) && envMax > 0 ? envMax : 3`. -/
def httpFetchCap (env : Option String) : Int :=
  let raw := match env with
    | none => "3"
    | some s => if s = "" then "3" else s
  match parseIntJS raw with
  | some v => if 0 < v then v else 3
  | none => 3

inductive FetchOutcome where
  | ok (status : Int) (contentType : Option String) (body : Option String)
  | fail (message : String)

structure FetchEntry where
  id : String
  status : Option Int
  json : Option Json
  body : Option String
  error : Option String
deriving Repr

/-- Body attachment: bodies longer than 5000 characters are cut to their
first 5000 characters with an explicit truncation marker appended. -/
def truncatedBody (body : String) : String :=
  if 5000 < body.length then body.take 5000 ++ "\n...[truncated]" else body

/-- One loop iteration of the pre-flight fetch: a successful response
contributes status, parsed JSON (only when the content type starts with
`application/json`), and the possibly-truncated body; a failure
contributes the error message.  Exactly one entry is pushed either way. -/
def mkFetchEntry (id : String) : FetchOutcome → FetchEntry
  | .fail msg => { id := id, status := none, json := none, body := none, error := some msg }
  | .ok status ct body =>
    let parsed := match body, ct with
      | some b, some c => if listStarts c.data "application/json".data then jsonParseL b.data else none
      | _, _ => none
    { id := id, status := some status, json := parsed,
      body := body.map truncatedBody, error := none }

/-- The fetched entry list: `maxFetch = Math.min(ids.length, cap)`
iterations, one entry per index. -/
def httpFetchEntries (fetcher : String → FetchOutcome) (ids : List String) (cap : Int) :
    List FetchEntry :=
  let maxFetch := min ids.length cap.toNat
  (ids.take maxFetch).map (fun id => mkFetchEntry id (fetcher id))

/-! ### Redaction (receipts.ts `maybeRedact`, claims C6 and C8)

`maybeRedact` clones the payload (a JSON round-trip, the identity on JSON
values) and scrubs three places with
`s.replace(/[A-Z0-9._%+-]+@[A-Z0-9.-]+\.[A-Z]\x7b2,\x7d/gi, "[redacted-email]")`
followed by `s.replace(/(?:\+?\d[\s-]?)\x7b7,\x7d\d/g, "[redacted-phone]")`.
`String.replace` with a global regex scans the original string left to
right: at each position the regex engine either yields its preferred
(backtracking-first) match, which is replaced and skipped over, or the
scan advances one character.  For these two patterns the preferred match
is computed below (`matchAtEmail`, `matchAtPhone`); `replaceAll` is the
scan itself. -/

def countWhile (p : Char → Bool) : List Char → Nat
  | [] => 0
  | c :: cs => if p c then countWhile p cs + 1 else 0

/-- `[A-Z0-9._%+-]` with the `i` flag. -/
def emailLocalCh (c : Char) : Bool :=
  c.isAlpha || c.isDigit || c = '.' || c = '_' || c = '%' || c = '+' || c = '-'

/-- `[A-Z0-9.-]` with the `i` flag. -/
def emailDomainCh (c : Char) : Bool :=
  c.isAlpha || c.isDigit || c = '.' || c = '-'

/-- Can position `j` of the domain part host the final `\.[A-Z]\x7b2,\x7d`?
(`.` at `j`, at least two letters after it). -/
def emailDotOk (rest : List Char) (j : Nat) : Bool :=
  rest.get? j = some '.' &&
  (match rest.get? (j + 1) with | some c => c.isAlpha | none => false) &&
  (match rest.get? (j + 2) with | some c => c.isAlpha | none => false)

/-- Largest `j` in `[1, bound]` accepted by `emailDotOk` (the greedy
`[A-Z0-9.-]+` backtracks from the longest run downwards). -/
def emailDotSearch (rest : List Char) : Nat → Option Nat
  | 0 => none
  | j + 1 => if emailDotOk rest (j + 1) then some (j + 1) else emailDotSearch rest j

/-- Preferred match of the email regex at the head of `cs`, as a length:
maximal local-part run, a literal `@`, the longest domain split admitting
`\.` plus two letters, then the maximal letter run. -/
def matchAtEmail (cs : List Char) : Option Nat :=
  let k := countWhile emailLocalCh cs
  if k = 0 then none
  else
    match cs.get? k with
    | some '@' =>
      let rest := cs.drop (k + 1)
      match emailDotSearch rest (countWhile emailDomainCh rest) with
      | none => none
      | some j =>
        let letters := countWhile Char.isAlpha (rest.drop (j + 1))
        some (k + 1 + j + 1 + letters)
    | _ => none

/-- The whitespace class `\s` of JS regexes (ASCII part plus the common
Unicode members). -/
def jsWsCh (c : Char) : Bool :=
  c = ' ' || c = '\t' || c = '\n' || c = '\r' || c = Char.ofNat 11 || c = Char.ofNat 12 ||
  c = Char.ofNat 0xa0 || c = Char.ofNat 0x2028 || c = Char.ofNat 0x2029 || c = Char.ofNat 0xfeff

/-- `[\s-]`. -/
def phoneSepCh (c : Char) : Bool := jsWsCh c || c = '-'

/-- Greedy decomposition of a head of `cs` into `\+?\d[\s-]?` groups:
each group takes an optional `+` (forced by the following digit), one
digit, and an optional separator, as the greedy engine does.  Each entry
records the group's length and whether it starts with a digit. -/
def phoneUnits : List Char → List (Nat × Bool)
  | [] => []
  | '+' :: rest =>
    match rest with
    | [] => []
    | c :: rest2 =>
      if c.isDigit then
        match rest2 with
        | s :: rest3 =>
          if phoneSepCh s then (3, false) :: phoneUnits rest3
          else (2, false) :: phoneUnits (s :: rest3)
        | [] => [(2, false)]
      else []
  | c :: rest =>
    if c.isDigit then
      match rest with
      | s :: rest2 =>
        if phoneSepCh s then (2, true) :: phoneUnits rest2
        else (1, true) :: phoneUnits (s :: rest2)
      | [] => [(1, true)]
    else []
termination_by cs => cs.length
decreasing_by all_goals simp <;> omega

/-- Match lengths the backtracking engine would try, in discovery order:
keep `j - 1` groups (`j - 1 ≥ 7`) and use the leading digit of group `j`
as the final `\d`; the engine's preferred match is the LAST one here
(largest kept count).  `j` is 1-based, `acc` the length of earlier groups. -/
def phoneCandidates : List (Nat × Bool) → Nat → Nat → List Nat
  | [], _, _ => []
  | (len, d) :: us, j, acc =>
    (if 8 ≤ j && d then [acc + 1] else []) ++ phoneCandidates us (j + 1) (acc + len)

/-- Preferred match of the phone regex at the head of `cs`, as a length. -/
def matchAtPhone (cs : List Char) : Option Nat :=
  (phoneCandidates (phoneUnits cs) 1 0).getLast?

/-- One global-regex replacement pass: scan left to right; replace the
preferred match and resume after it, otherwise keep one character.  The
fuel is the input length, which suffices because every match of the two
patterns used here is nonempty (proved below). -/
def replaceAllF (matchAt : List Char → Option Nat) (token : List Char) :
    Nat → List Char → List Char
  | 0, cs => cs
  | f + 1, cs =>
    match cs with
    | [] => []
    | c :: rest =>
      match matchAt (c :: rest) with
      | some n => token ++ replaceAllF matchAt token f ((c :: rest).drop n)
      | none => c :: replaceAllF matchAt token f rest

def replaceAll (matchAt : List Char → Option Nat) (token : List Char) (cs : List Char) :
    List Char :=
  replaceAllF matchAt token cs.length cs

def emailToken : List Char := "[redacted-email]".data

def phoneToken : List Char := "[redacted-phone]".data

/-- The `redact` helper in `receipts.ts`: email replacement first, then
phone replacement. -/
def redactStr (s : String) : String :=
  String.mk (replaceAll matchAtPhone phoneToken (replaceAll matchAtEmail emailToken s.data))

/-- A `meta` entry: allowlisted keys become `"[redacted]"`, other string
values are scrubbed, non-strings pass through. -/
def redactMetaEntry (fields : List String) (kv : String × Json) : String × Json :=
  if kv.1 ∈ fields then (kv.1, Json.str "[redacted]")
  else
    match kv.2 with
    | Json.str s => (kv.1, Json.str (redactStr s))
    | v => (kv.1, v)

/-- A top-level payload entry: `meta` has its entries scrubbed, `input`
and `attachments_snapshot` are scrubbed when they are strings. -/
def redactTop (fields : List String) (kv : String × Json) : String × Json :=
  if kv.1 = "meta" then
    match kv.2 with
    | Json.obj ms => (kv.1, Json.obj (ms.map (redactMetaEntry fields)))
    | v => (kv.1, v)
  else if kv.1 = "input" then
    match kv.2 with
    | Json.str s => (kv.1, Json.str (redactStr s))
    | v => (kv.1, v)
  else if kv.1 = "attachments_snapshot" then
    match kv.2 with
    | Json.str s => (kv.1, Json.str (redactStr s))
    | v => (kv.1, v)
  else kv

/-- `maybeRedact` from `receipts.ts` lines 70–86.  The JSON-round-trip
clone is the identity on JSON values; `enabled` is
`ROUTEPILOT_REDACT === '1'` and `fields` the comma-split
`ROUTEPILOT_REDACT_FIELDS`. -/
def maybeRedact (enabled : Bool) (fields : List String) (j : Json) : Json :=
  if enabled then
    match j with
    | Json.obj kvs => Json.obj (kvs.map (redactTop fields))
    | v => v
  else j

/-! ### Receipts recorder (receipts.ts `writeReceipt` / `sign`, claim C6) -/

/-- `JSON.stringify` escaping for one character. -/
def escapeJsonChar (c : Char) : String :=
  if c = '"' then "\\\""
  else if c = '\\' then "\\\\"
  else if c = '\n' then "\\n"
  else if c = '\r' then "\\r"
  else if c = '\t' then "\\t"
  else if c = Char.ofNat 8 then "\\b"
  else if c = Char.ofNat 12 then "\\f"
  else if c.toNat < 32 then
    "\\u00" ++ String.mk [Nat.digitChar (c.toNat / 16), Nat.digitChar (c.toNat % 16)]
  else String.mk [c]

def quoteJson (s : String) : String :=
  "\"" ++ String.join (s.data.map escapeJsonChar) ++ "\""

/-- Rendering of a payload number (payload numbers are produced by the
driver; integers print as integers). -/
def stringifyNum (n : JsonNumber) : String :=
  if n.exp10 = 0 then toString n.mantissa
  else toString n.mantissa ++ "e" ++ toString n.exp10

mutual
def stringify : Json → String
  | .null => "null"
  | .bool true => "true"
  | .bool false => "false"
  | .num n => stringifyNum n
  | .str s => quoteJson s
  | .arr es => "[" ++ stringifyElems es ++ "]"
  | .obj ms => "\x7b" ++ stringifyMembers ms ++ "\x7d"

def stringifyElems : List Json → String
  | [] => ""
  | [e] => stringify e
  | e :: e2 :: es => stringify e ++ "," ++ stringifyElems (e2 :: es)

def stringifyMembers : List (String × Json) → String
  | [] => ""
  | [(k, v)] => quoteJson k ++ ":" ++ stringify v
  | (k, v) :: m2 :: ms => quoteJson k ++ ":" ++ stringify v ++ "," ++ stringifyMembers (m2 :: ms)
end

structure UsageRec where
  prompt : Int
  completion : Int
  cost : JsonNumber
deriving Repr, DecidableEq

/-- `ReceiptInput` from `receipts.ts`, in declaration order (the call
sites build the object in this order, and object spread preserves it). -/
structure ReceiptInput where
  policy : String
  route_primary : String
  route_final : String
  model_path : Option String
  fallback_count : Int
  latency_ms : Int
  usage : UsageRec
  mirrorJson : Option Bool
  prompt_hash : Option String
  policy_hash : Option String
  task_id : Option String
  parent_id : Option String
  first_token_ms : Option Int
  reasons : Option (List String)
  extras : Option (List (String × Json))

def jNum (i : Int) : Json := Json.num { mantissa := i, exp10 := 0 }

def optField (k : String) : Option Json → List (String × Json)
  | none => []
  | some v => [(k, v)]

/-- The signed payload `\x7b id, ts, ...data, ...(data.extras ? \x7b meta: data.extras \x7d : \x7b\x7d) \x7d`:
`id` and `ts` first, then the input's own keys in order (absent optional
keys are omitted, as `JSON.stringify` drops `undefined` members), then
`meta` duplicating `extras` when present. -/
def mkReceiptPayload (id ts : String) (d : ReceiptInput) : Json :=
  Json.obj
    ([("id", Json.str id), ("ts", Json.str ts), ("policy", Json.str d.policy),
      ("route_primary", Json.str d.route_primary), ("route_final", Json.str d.route_final)]
      ++ optField "model_path" (d.model_path.map Json.str)
      ++ [("fallback_count", jNum d.fallback_count), ("latency_ms", jNum d.latency_ms),
          ("usage", Json.obj [("prompt", jNum d.usage.prompt),
            ("completion", jNum d.usage.completion), ("cost", Json.num d.usage.cost)])]
      ++ optField "mirrorJson" (d.mirrorJson.map Json.bool)
      ++ optField "prompt_hash" (d.prompt_hash.map Json.str)
      ++ optField "policy_hash" (d.policy_hash.map Json.str)
      ++ optField "task_id" (d.task_id.map Json.str)
      ++ optField "parent_id" (d.parent_id.map Json.str)
      ++ optField "first_token_ms" (d.first_token_ms.map jNum)
      ++ optField "reasons" (d.reasons.map (fun rs => Json.arr (rs.map Json.str)))
      ++ optField "extras" (d.extras.map Json.obj)
      ++ optField "meta" (d.extras.map Json.obj))

/-- `writeReceipt` from `receipts.ts` lines 23–60.  The HMAC-SHA-256
primitive comes from `node:crypto`, outside this repository, so it is an
explicit function parameter; `sign` is `hmac (JWT_SECRET ?? "dev-secret")
(JSON.stringify payload)` applied to the post-redaction payload, and the
same serialization is stored as `payload_json`. -/
def writeReceipt (hmac : String → String → String) (secretEnv : Option String)
    (redactOn : Bool) (redactFields : List String) (id ts : String) (d : ReceiptInput) :
    ReceiptRow :=
  let payload := maybeRedact redactOn redactFields (mkReceiptPayload id ts d)
  let payloadJson := stringify payload
  let signature := hmac (secretEnv.getD "dev-secret") payloadJson
  { id := id, ts := ts, policy := d.policy, route_primary := d.route_primary,
    route_final := d.route_final, fallback_count := d.fallback_count,
    latency_ms := d.latency_ms, first_token_ms := d.first_token_ms,
    prompt_hash := d.prompt_hash, policy_hash := d.policy_hash,
    task_id := d.task_id, parent_id := d.parent_id,
    reasons := d.reasons.map (fun rs => stringify (Json.arr (rs.map Json.str))),
    prompt_tokens := d.usage.prompt, completion_tokens := d.usage.completion,
    cost_usd := d.usage.cost, signature := signature, payload_json := payloadJson,
    model_path := some (d.model_path.getD d.route_final) }

/-! ### Regex languages and decompositions used by the redaction proofs -/

/-- Characters an email-regex match can contain. -/
def emailAlphaCh (c : Char) : Bool := emailLocalCh c || c = '@'

/-- Characters a phone-regex match can contain. -/
def phoneAlphaCh (c : Char) : Bool := c.isDigit || c = '+' || phoneSepCh c

/-- The language of `[A-Z0-9._%+-]+@[A-Z0-9.-]+\.[A-Z]\x7b2,\x7d` with the
`i` flag: a nonempty local part, `@`, a nonempty domain run, a dot, and at
least two letters. -/
def EWord (m : List Char) : Prop :=
  ∃ a b t, m = a ++ '@' :: (b ++ '.' :: t) ∧ a ≠ [] ∧ (∀ c ∈ a, emailLocalCh c) ∧
    b ≠ [] ∧ (∀ c ∈ b, emailDomainCh c) ∧ 2 ≤ t.length ∧ (∀ c ∈ t, c.isAlpha)

/-- One `\+?\d[\s-]?` group of the phone regex. -/
def IsGroup (g : List Char) : Prop :=
  (∃ d, g = [d] ∧ d.isDigit) ∨ (∃ d s, g = [d, s] ∧ d.isDigit ∧ phoneSepCh s) ∨
  (∃ d, g = ['+', d] ∧ d.isDigit) ∨ (∃ d s, g = ['+', d, s] ∧ d.isDigit ∧ phoneSepCh s)

/-- The language of `(?:\+?\d[\s-]?)\x7b7,\x7d\d`: at least seven groups
followed by a final digit. -/
def PWord (m : List Char) : Prop :=
  ∃ (gs : List (List Char)) (d : Char), m = gs.flatten ++ [d] ∧ d.isDigit ∧ 7 ≤ gs.length ∧
    (∀ g ∈ gs, IsGroup g)

/-- The recorded greedy units fit the text: each is a group of the
recorded length, and a digit-flagged unit starts with a digit. -/
def UnitsFit : List Char → List (Nat × Bool) → Prop
  | _, [] => True
  | cs, u :: us => ∃ g rest, cs = g ++ rest ∧ g.length = u.1 ∧ IsGroup g ∧
      (u.2 = true → ∃ d tail, g = d :: tail ∧ d.isDigit) ∧ UnitsFit rest us

/-! ## Theorems -/

/-! ### Quota lemmas -/

theorem quotaLookup_update_self (db : List ((String × String) × Int)) (k : String × String)
    (nv : Int) (h : (quotaLookup db k).isSome) :
    quotaLookup (quotaUpdate db k nv) k = some nv := by
  induction db with
  | nil => simp [quotaLookup] at h
  | cons hd tl ih =>
    obtain ⟨k', v⟩ := hd
    by_cases hk : k' = k
    · simp [quotaLookup, quotaUpdate, hk]
    · simp only [quotaLookup, quotaUpdate, if_neg hk] at h ⊢
      exact ih h

theorem quotaLookup_append_self (db : List ((String × String) × Int)) (k : String × String)
    (v : Int) (h : quotaLookup db k = none) :
    quotaLookup (db ++ [(k, v)]) k = some v := by
  induction db with
  | nil => simp [quotaLookup]
  | cons hd tl ih =>
    obtain ⟨k', v'⟩ := hd
    by_cases hk : k' = k
    · simp [quotaLookup, hk] at h
    · simp only [quotaLookup, List.cons_append, if_neg hk] at h ⊢
      exact ih h

/-- After a successful `addDailyTokens` call, the stored value for the
day's key is the new total, and that total is within the cap. -/
theorem addDailyTokens_ok_value (dayFn : String → String)
    (db : List ((String × String) × Int)) (userRef : String) (tokens dailyCap : Int)
    (tz : String) (db' : List ((String × String) × Int))
    (h : addDailyTokens dayFn db userRef tokens dailyCap tz = .ok db') :
    quotaLookup db' (userRef, dayFn tz) =
      some ((quotaLookup db (userRef, dayFn tz)).getD 0 + tokens) ∧
    (quotaLookup db (userRef, dayFn tz)).getD 0 + tokens ≤ dailyCap := by
  unfold addDailyTokens at h
  by_cases hc : dailyCap < (quotaLookup db (userRef, dayFn tz)).getD 0 + tokens
  · rw [if_pos hc] at h
    simp at h
  · rw [if_neg hc] at h
    refine ⟨?_, by omega⟩
    rcases hlook : quotaLookup db (userRef, dayFn tz) with _ | v
    · rw [hlook] at h
      simp only [Except.ok.injEq] at h
      subst h
      have := quotaLookup_append_self db (userRef, dayFn tz) tokens hlook
      simp [this, hlook]
    · rw [hlook] at h
      simp only [Except.ok.injEq] at h
      subst h
      have hlem := quotaLookup_update_self db (userRef, dayFn tz)
        ((quotaLookup db (userRef, dayFn tz)).getD 0 + tokens) (by simp [hlook])
      simp only [hlook] at hlem ⊢
      exact hlem

theorem runDailyTokens_last (dayFn : String → String) (userRef : String)
    (dailyCap : Int) (tz : String) :
    ∀ (ts : List Int) (db db' : List ((String × String) × Int)),
      ts ≠ [] →
      runDailyTokens dayFn db userRef dailyCap tz ts = some db' →
      (quotaLookup db' (userRef, dayFn tz)).getD 0 ≤ dailyCap := by
  intro ts
  induction ts with
  | nil =>
    intro db db' hne
    exact absurd rfl hne
  | cons t rest ih =>
    intro db db' _ hrun
    unfold runDailyTokens at hrun
    rcases hstep : addDailyTokens dayFn db userRef t dailyCap tz with e | db1
    · simp [hstep] at hrun
    · simp only [hstep] at hrun
      obtain ⟨hval, hle⟩ := addDailyTokens_ok_value dayFn db userRef t dailyCap tz db1 hstep
      cases rest with
      | nil =>
        simp only [runDailyTokens, Option.some.injEq] at hrun
        subst hrun
        rw [hval]
        simpa using hle
      | cons r rs => exact ih db1 db' (by simp) hrun

/-- C3: daily-quota atomicity and cap invariant.  (1) When the existing
total plus the increment exceeds the cap, `addDailyTokens` returns exactly
`QuotaError(kind "daily", limit cap, when day)` and returns no updated
table (so nothing is written).  (2) Otherwise it upserts the new total.
(3) After any nonempty sequence of successful calls within one day the
stored count is at most the cap.  The day key is computed from the
timezone through the ambient clock, modelled by the `dayFn` parameter. -/
theorem addDailyTokens_capInvariant :
    (∀ (dayFn : String → String) db userRef tokens dailyCap tz,
      dailyCap < (quotaLookup db (userRef, dayFn tz)).getD 0 + tokens →
      addDailyTokens dayFn db userRef tokens dailyCap tz =
        .error { kind := "daily", limit := some dailyCap, whenDay := some (dayFn tz) })
    ∧ (∀ (dayFn : String → String) db userRef tokens dailyCap tz,
      (quotaLookup db (userRef, dayFn tz)).getD 0 + tokens ≤ dailyCap →
      ∃ db', addDailyTokens dayFn db userRef tokens dailyCap tz = .ok db' ∧
        quotaLookup db' (userRef, dayFn tz) =
          some ((quotaLookup db (userRef, dayFn tz)).getD 0 + tokens))
    ∧ (∀ (dayFn : String → String) db userRef dailyCap tz ts db',
      ts ≠ [] →
      runDailyTokens dayFn db userRef dailyCap tz ts = some db' →
      (quotaLookup db' (userRef, dayFn tz)).getD 0 ≤ dailyCap) := by
  refine ⟨?_, ?_, ?_⟩
  · intro dayFn db userRef tokens dailyCap tz h
    simp [addDailyTokens, h]
  · intro dayFn db userRef tokens dailyCap tz h
    have hnc : ¬ dailyCap < (quotaLookup db (userRef, dayFn tz)).getD 0 + tokens := by omega
    rcases hlook : quotaLookup db (userRef, dayFn tz) with _ | v
    · refine ⟨db ++ [((userRef, dayFn tz), tokens)], ?_, ?_⟩
      · unfold addDailyTokens
        rw [if_neg hnc, hlook]
      · have := quotaLookup_append_self db (userRef, dayFn tz) tokens hlook
        simp [this, hlook]
    · refine ⟨quotaUpdate db (userRef, dayFn tz)
        ((quotaLookup db (userRef, dayFn tz)).getD 0 + tokens), ?_, ?_⟩
      · unfold addDailyTokens
        rw [if_neg hnc, hlook]
      · have hlem := quotaLookup_update_self db (userRef, dayFn tz)
          ((quotaLookup db (userRef, dayFn tz)).getD 0 + tokens) (by simp [hlook])
        simp only [hlook] at hlem ⊢
        exact hlem
  · intro dayFn db userRef dailyCap tz ts db' hne hrun
    exact runDailyTokens_last dayFn userRef dailyCap tz ts db db' hne hrun

theorem addDailyTokens_capInvariant_witness :
    (1000 : Int) < (quotaLookup [] ("u", "2026-10-11")).getD 0 + 1200 ∧
    addDailyTokens (fun _ => "2026-10-11") [] "u" 1200 1000 "Asia/Kolkata" =
      .error { kind := "daily", limit := some 1000, whenDay := some "2026-10-11" } :=
  ⟨by decide,
    addDailyTokens_capInvariant.1 (fun _ => "2026-10-11") [] "u" 1200 1000 "Asia/Kolkata"
      (by decide)⟩

/-- C5: when the daily quota trips after a successful stream, the ledger
phase of `infer` has already written the receipt, never reaches the trace
insert, and surfaces the daily `QuotaError` to the caller. -/
theorem inferFinish_quotaTrip :
    ∀ (dayFn : String → String) (st : LedgerState) (receipt : ReceiptRow) userRef
      (tokensUsed dailyCap : Int) tz (tr : TraceRow),
      dailyCap < (quotaLookup st.quotas (userRef, dayFn tz)).getD 0 + tokensUsed →
      inferFinish dayFn st receipt userRef tokensUsed dailyCap tz tr =
        ({ st with receipts := receipt :: st.receipts },
          some { kind := "daily", limit := some dailyCap, whenDay := some (dayFn tz) }) ∧
      receipt ∈ (inferFinish dayFn st receipt userRef tokensUsed dailyCap tz tr).1.receipts ∧
      (inferFinish dayFn st receipt userRef tokensUsed dailyCap tz tr).1.traces = st.traces := by
  intro dayFn st receipt userRef tokensUsed dailyCap tz tr h
  have herr : addDailyTokens dayFn st.quotas userRef tokensUsed dailyCap tz =
      .error { kind := "daily", limit := some dailyCap, whenDay := some (dayFn tz) } := by
    simp [addDailyTokens, h]
  have hmain : inferFinish dayFn st receipt userRef tokensUsed dailyCap tz tr =
      ({ st with receipts := receipt :: st.receipts },
        some { kind := "daily", limit := some dailyCap, whenDay := some (dayFn tz) }) := by
    simp [inferFinish, dbWriteReceipt, herr]
  refine ⟨hmain, ?_, ?_⟩
  · rw [hmain]
    exact List.mem_cons_self _ _
  · rw [hmain]

theorem inferFinish_quotaTrip_witness :
    (500 : Int) < (quotaLookup [(("u", "d"), 450)] ("u", (fun _ => "d") "tz")).getD 0 + 200 ∧
    (inferFinish (fun _ => "d") ⟨[], [(("u", "d"), 450)], []⟩
      { id := "r1", ts := "t", policy := "p", route_primary := "A", route_final := "A",
        fallback_count := 0, latency_ms := 10, first_token_ms := none, prompt_hash := none,
        policy_hash := none, task_id := none, parent_id := none, reasons := none,
        prompt_tokens := 100, completion_tokens := 100, cost_usd := { mantissa := 0, exp10 := 0 },
        signature := "s", payload_json := "pj", model_path := none }
      "u" 200 500 "tz"
      { id := "r1", user_ref := some "u", policy := "p", route_primary := "A",
        route_final := "A", latency_ms := 10, tokens := 200,
        cost_usd := { mantissa := 0, exp10 := 0 } }).2 =
      some { kind := "daily", limit := some 500, whenDay := some "d" } := by
  constructor
  · decide
  · have := (inferFinish_quotaTrip (fun _ => "d") ⟨[], [(("u", "d"), 450)], []⟩
      { id := "r1", ts := "t", policy := "p", route_primary := "A", route_final := "A",
        fallback_count := 0, latency_ms := 10, first_token_ms := none, prompt_hash := none,
        policy_hash := none, task_id := none, parent_id := none, reasons := none,
        prompt_tokens := 100, completion_tokens := 100, cost_usd := { mantissa := 0, exp10 := 0 },
        signature := "s", payload_json := "pj", model_path := none }
      "u" 200 500 "tz"
      { id := "r1", user_ref := some "u", policy := "p", route_primary := "A",
        route_final := "A", latency_ms := 10, tokens := 200,
        cost_usd := { mantissa := 0, exp10 := 0 } } (by decide)).1
    rw [this]

/-! ### Failure-reason classification (C4) -/

/-- C4 counterexample: an error with no HTTP status, not cancelled by the
stall timer, whose message merely contains the word "aborted", is
classified `stall` by the code, while the claim's case list (no timer
cancellation, no status) puts it in the remaining-`error` case. -/
theorem classifyReason_counterexample :
    classifyReason none false "connection aborted by peer" = "stall" ∧
    claimReasonC4 none false = "error" ∧
    "stall" ≠ "error" :=
  ⟨rfl, rfl, by decide⟩

/-- C4 as amended: reasons are classified by HTTP status first when one is
present (429 to `rate_limit`, at least 500 to `5xx`, anything else to
`http_<code>`); without a status, `stall` exactly when the attempt was
cancelled by the stall timer or the message matches /aborted|AbortError/i,
and `error` otherwise. -/
theorem classifyReason_cases :
    (∀ (s : Int) (aborted : Bool) msg, s = 429 →
      classifyReason (some s) aborted msg = "rate_limit")
    ∧ (∀ (s : Int) (aborted : Bool) msg, s ≠ 429 → 500 ≤ s →
      classifyReason (some s) aborted msg = "5xx")
    ∧ (∀ (s : Int) (aborted : Bool) msg, s ≠ 429 → s < 500 →
      classifyReason (some s) aborted msg = "http_" ++ toString s)
    ∧ (∀ msg (aborted : Bool), aborted = true ∨ abortRegexMatches msg = true →
      classifyReason none aborted msg = "stall")
    ∧ (∀ msg (aborted : Bool), aborted = false → abortRegexMatches msg = false →
      classifyReason none aborted msg = "error") := by
  refine ⟨?_, ?_, ?_, ?_, ?_⟩
  · intro s aborted msg hs
    simp [classifyReason, hs]
  · intro s aborted msg hs h5
    simp [classifyReason, hs, h5]
  · intro s aborted msg hs h5
    have : ¬ (500 : Int) ≤ s := by omega
    simp [classifyReason, hs, this]
  · intro msg aborted h
    rcases h with h | h <;> simp [classifyReason, h]
  · intro msg aborted ha hm
    simp [classifyReason, ha, hm]

theorem classifyReason_cases_witness :
    classifyReason (some 429) false "" = "rate_limit" ∧
    classifyReason (some 503) false "" = "5xx" ∧
    classifyReason (some 404) false "" = "http_404" ∧
    classifyReason none true "" = "stall" ∧
    classifyReason none false "boom" = "error" :=
  ⟨classifyReason_cases.1 429 false "" rfl,
   classifyReason_cases.2.1 503 false "" (by decide) (by decide),
   classifyReason_cases.2.2.1 404 false "" (by decide) (by decide),
   classifyReason_cases.2.2.2.1 "" true (Or.inl rfl),
   classifyReason_cases.2.2.2.2 "boom" false rfl (by decide)⟩

/-! ### Token ceiling (C10) -/

/-- C10 counterexample: with a policy ceiling of 4096 tokens and a shadow
model requested, the shadow router call inside the same `infer` request
asks the gateway for `1 + min(4096, 2048) = 2049` tokens, exceeding 2048. -/
theorem shadowMaxTokens_counterexample :
    shadowMaxTokens (some 4096) = 2049 ∧
    2048 < shadowMaxTokens (some 4096) ∧
    (mkChatCall "shadow-model" (shadowMaxTokens (some 4096))).max_tokens = 2049 :=
  ⟨rfl, by decide, rfl⟩

/-- C10 as amended: the main router call's `max_tokens` is
`min(policy.objectives.max_tokens, 2048)`, defaulting to 1024 and never
above 2048, and every per-attempt gateway call record carries exactly that
value; the optional shadow call asks for one more token. -/
theorem inferMaxTokens_clamped :
    ∀ (mt : Option Nat) (model : String),
      effectiveMaxTokens mt = min (mt.getD 1024) 2048 ∧
      effectiveMaxTokens none = 1024 ∧
      effectiveMaxTokens mt ≤ 2048 ∧
      (mkChatCall model (effectiveMaxTokens mt)).max_tokens = effectiveMaxTokens mt ∧
      shadowMaxTokens mt = effectiveMaxTokens mt + 1 := by
  intro mt model
  refine ⟨rfl, rfl, ?_, rfl, ?_⟩
  · exact Nat.min_le_right _ _
  · simp [shadowMaxTokens, Nat.add_comm]

/-! ### http_fetch pre-flight cap (C9) -/

/-- C9: the pre-flight fetch produces exactly `min(ids.length, cap)`
entries where `cap` is `HTTP_FETCH_MAX` resolved with default 3 on an
unset, non-numeric or non-positive value; in particular exactly `cap`
entries when more ids are supplied; and over-long bodies are cut to their
first 5000 characters with the truncation marker appended. -/
theorem httpFetch_cap_behavior :
    (∀ (fetcher : String → FetchOutcome) ids env,
      (httpFetchEntries fetcher ids (httpFetchCap env)).length =
        min ids.length (httpFetchCap env).toNat)
    ∧ (∀ (fetcher : String → FetchOutcome) ids env,
      (httpFetchCap env).toNat < ids.length →
      (httpFetchEntries fetcher ids (httpFetchCap env)).length = (httpFetchCap env).toNat)
    ∧ httpFetchCap none = 3
    ∧ (∀ s v, parseIntJS s = some v → v ≤ 0 → httpFetchCap (some s) = 3)
    ∧ (∀ s, parseIntJS s = none → httpFetchCap (some s) = 3)
    ∧ (∀ b : String, 5000 < b.length →
      truncatedBody b = b.take 5000 ++ "\n...[truncated]") := by
  refine ⟨?_, ?_, rfl, ?_, ?_, ?_⟩
  · intro fetcher ids env
    simp [httpFetchEntries, List.length_take]
  · intro fetcher ids env h
    simp [httpFetchEntries, List.length_take]
    omega
  · intro s v hp hv
    by_cases hs : s = ""
    · subst hs
      simp [parseIntJS, takeDigits] at hp
    · have hpos : ¬ (0 : Int) < v := by omega
      simp [httpFetchCap, hs, hp, hpos]
  · intro s hp
    by_cases hs : s = ""
    · subst hs
      rfl
    · simp [httpFetchCap, hs, hp]
  · intro b h
    simp [truncatedBody, h]

theorem httpFetch_cap_behavior_witness :
    (httpFetchCap none).toNat < 4 ∧
    (httpFetchEntries (fun _ => FetchOutcome.fail "down") ["1", "2", "3", "4"]
      (httpFetchCap none)).length = (httpFetchCap none).toNat ∧
    parseIntJS "-2" = some (-2) ∧ httpFetchCap (some "-2") = 3 :=
  ⟨by decide,
   httpFetch_cap_behavior.2.1 (fun _ => FetchOutcome.fail "down") ["1", "2", "3", "4"] none
     (by decide),
   by decide,
   httpFetch_cap_behavior.2.2.2.1 "-2" (-2) (by decide) (by decide)⟩

/-! ### Receipt signature invariant (C6) -/

/-- C6: every receipt row produced by `writeReceipt` carries a signature
equal to the HMAC primitive keyed with `JWT_SECRET` (default
`"dev-secret"`) applied to the row's own `payload_json`, and that stored
serialization is of the post-redaction payload, so the signature covers
the payload after redaction. -/
theorem receipt_signature_invariant :
    ∀ (hmac : String → String → String) (secretEnv : Option String) (redactOn : Bool)
      (redactFields : List String) (id ts : String) (d : ReceiptInput),
      (writeReceipt hmac secretEnv redactOn redactFields id ts d).signature =
        hmac (secretEnv.getD "dev-secret")
          (writeReceipt hmac secretEnv redactOn redactFields id ts d).payload_json ∧
      (writeReceipt hmac secretEnv redactOn redactFields id ts d).payload_json =
        stringify (maybeRedact redactOn redactFields (mkReceiptPayload id ts d)) ∧
      (none : Option String).getD "dev-secret" = "dev-secret" :=
  fun _ _ _ _ _ _ _ => ⟨rfl, rfl, rfl⟩

/-! ### Sub-agent output collection (C2) -/

/-- The early-returning scan equals: first successful parse among the
candidate slices, then the whole-buffer fallback, then the error. -/
theorem sljScan_eq_first (text : List Char) :
    ∀ (rem : List Char) (i : Nat) (depth : Int) (start : Option Nat),
      sljScan text rem i depth start =
        match ((sljCandidates text rem i depth start).filterMap jsonParseL).head? with
        | some v => .ok v
        | none =>
          match jsonParseL text with
          | some v => .ok v
          | none => .error "Failed to extract JSON from text" := by
  intro rem
  induction rem with
  | nil =>
    intro i depth start
    simp [sljScan, sljCandidates]
  | cons c rest ih =>
    intro i depth start
    simp only [sljScan, sljCandidates]
    by_cases hbrace : c = '{'
    · simp only [if_pos hbrace]
      exact ih (i + 1) (depth + 1) _
    · simp only [if_neg hbrace]
      by_cases hclose : c = '}'
      · simp only [if_pos hclose]
        cases start with
        | none => exact ih (i + 1) (depth - 1) none
        | some s =>
          by_cases hz : depth - 1 = 0
          · simp only [if_pos hz]
            cases hparse : jsonParseL ((text.drop s).take (i + 1 - s)) with
            | some v => simp [List.filterMap_cons, hparse]
            | none =>
              simp only [List.filterMap_cons, hparse]
              exact ih (i + 1) (depth - 1) (some s)
          · simp only [if_neg hz]
            exact ih (i + 1) (depth - 1) (some s)
      · simp only [if_neg hclose]
        exact ih (i + 1) depth start

/-- C2 counterexample: a buffer holding two balanced top-level JSON
objects.  The code returns the FIRST one that parses, while the claim's
"take the last successful parse" names the second. -/
theorem safeLastJson_counterexample :
    safeLastJson "\x7b\"a\":1\x7d \x7b\"b\":2\x7d" = .ok (Json.obj [("a", jNum 1)]) ∧
    lastBalancedJson "\x7b\"a\":1\x7d \x7b\"b\":2\x7d" = some (Json.obj [("b", jNum 2)]) ∧
    Json.obj [("a", jNum 1)] ≠ Json.obj [("b", jNum 2)] := by
  refine ⟨rfl, rfl, ?_⟩
  intro h
  simp [jNum] at h

/-- C2 as amended: the controller extracts the FIRST top-level balanced
brace group that `JSON.parse` accepts (the scan tries each closing
position in order and returns the first success); when no candidate
parses, the whole buffer is tried; only when that also fails does the hop
fail with an error. -/
theorem safeLastJson_takes_first :
    ∀ text, safeLastJson text = firstBalancedJson text := by
  intro text
  exact sljScan_eq_first text.data text.data 0 0 none

/-! ### The p95 query (C7) -/

theorem insertSorted_length (x : Int) (l : List Int) :
    (insertSorted x l).length = l.length + 1 := by
  induction l with
  | nil => rfl
  | cons y ys ih =>
    by_cases h : x ≤ y <;> simp [insertSorted, h, ih]

theorem sortAsc_length (l : List Int) : (sortAsc l).length = l.length := by
  induction l with
  | nil => rfl
  | cons x xs ih => simp [sortAsc, insertSorted_length, ih]

/-- The JS index `floor(0.95 * (k - 1))` is below `k` for nonempty data. -/
theorem p95_index_lt (k : Nat) (hk : 1 ≤ k) : 19 * (k - 1) / 20 < k := by
  have h20 : (0 : Nat) < 20 := by omega
  rw [Nat.div_lt_iff_lt_mul h20]
  omega

theorem take_to_min {α : Type} (l : List α) (n : Nat) :
    l.take n = l.take (min n l.length) := by
  rcases Nat.le_total n l.length with h | h
  · rw [Nat.min_eq_left h]
  · rw [Nat.min_eq_right h, List.take_of_length_le h, List.take_length]

/-- Helper: for a positive window and a nonempty trace set, the spec-side
formula yields a value. -/
theorem p95SpecC7_some (db : List TraceRow) (model : String) (n : Nat)
    (hn : 1 ≤ n) (hne : tracesFor db model ≠ []) :
    ∃ v, p95SpecC7 db model n = some v := by
  have hlen1 : 0 < (tracesFor db model).length := List.length_pos.2 hne
  have hk1 : 1 ≤ min n (tracesFor db model).length := by omega
  have hk : ¬ (min n (tracesFor db model).length = 0) := by omega
  have hslen : (sortAsc (((tracesFor db model).take (min n (tracesFor db model).length)).map
      (fun t => t.latency_ms))).length = min n (tracesFor db model).length := by
    rw [sortAsc_length, List.length_map, List.length_take]
    omega
  have hidx : 19 * (min n (tracesFor db model).length - 1) / 20 <
      (sortAsc (((tracesFor db model).take (min n (tracesFor db model).length)).map
        (fun t => t.latency_ms))).length := by
    rw [hslen]
    exact p95_index_lt _ hk1
  refine ⟨(sortAsc (((tracesFor db model).take (min n (tracesFor db model).length)).map
    (fun t => t.latency_ms))).get ⟨19 * (min n (tracesFor db model).length - 1) / 20, hidx⟩, ?_⟩
  show (if min n (tracesFor db model).length = 0 then none else
    (sortAsc (((tracesFor db model).take (min n (tracesFor db model).length)).map
      (fun t => t.latency_ms))).get? (19 * (min n (tracesFor db model).length - 1) / 20)) =
    some ((sortAsc (((tracesFor db model).take (min n (tracesFor db model).length)).map
      (fun t => t.latency_ms))).get ⟨19 * (min n (tracesFor db model).length - 1) / 20, hidx⟩)
  rw [if_neg hk]
  exact List.get?_eq_get hidx

/-- C7: `p95LatencyFor` computes exactly the spec's formula
`sorted_asc[floor(0.95 * (min(N, n) - 1))]` over the `min(N, n)` most
recent latencies, and, for every positive window, returns `null` exactly
when no trace for the model exists (the positivity hypothesis is the
amendment: with window 0 the query returns `null` even when traces
exist). -/
theorem p95LatencyFor_query (db : List TraceRow) (model : String) (n : Nat) :
    p95LatencyFor db model n = p95SpecC7 db model n ∧
    (1 ≤ n → (p95LatencyFor db model n = none ↔ tracesFor db model = [])) ∧
    (1 ≤ n → tracesFor db model ≠ [] → ∃ v, p95LatencyFor db model n = some v) := by
  have htake : (tracesFor db model).take n =
      (tracesFor db model).take (min n (tracesFor db model).length) :=
    take_to_min _ n
  have hmain : p95LatencyFor db model n = p95SpecC7 db model n := by
    show (match ((tracesFor db model).take n).map (fun t => t.latency_ms) with
      | [] => none
      | _ :: _ =>
        (sortAsc (((tracesFor db model).take n).map (fun t => t.latency_ms))).get?
          (19 * ((sortAsc (((tracesFor db model).take n).map
            (fun t => t.latency_ms))).length - 1) / 20)) =
      (if min n (tracesFor db model).length = 0 then none else
        (sortAsc (((tracesFor db model).take (min n (tracesFor db model).length)).map
          (fun t => t.latency_ms))).get? (19 * (min n (tracesFor db model).length - 1) / 20))
    rw [htake]
    rcases hrows : ((tracesFor db model).take (min n (tracesFor db model).length)).map
        (fun t => t.latency_ms) with _ | ⟨r, rs⟩
    · have hc := congrArg List.length hrows
      rw [List.length_map, List.length_take] at hc
      have h2 : min (min n (tracesFor db model).length) (tracesFor db model).length
          = min n (tracesFor db model).length := by
        rw [min_assoc, min_self]
      rw [h2] at hc
      have hk0 : min n (tracesFor db model).length = 0 := by simpa using hc
      rw [hrows, if_pos hk0]
    · have hc := congrArg List.length hrows
      rw [List.length_map, List.length_take] at hc
      have hlen : min n (tracesFor db model).length = (r :: rs).length := by
        have h2 : min (min n (tracesFor db model).length) (tracesFor db model).length
            = min n (tracesFor db model).length := by
          rw [min_assoc, min_self]
        rw [h2] at hc
        exact hc
      have hk : ¬ (min n (tracesFor db model).length = 0) := by
        rw [hlen]
        simp
      rw [hrows, if_neg hk]
      show (sortAsc (r :: rs)).get?
          (19 * ((sortAsc (r :: rs)).length - 1) / 20) =
        (sortAsc (r :: rs)).get? (19 * (min n (tracesFor db model).length - 1) / 20)
      rw [sortAsc_length, hlen]
  refine ⟨hmain, ?_, ?_⟩
  · intro hn
    constructor
    · intro h
      by_contra hne
      obtain ⟨v, hv⟩ := p95SpecC7_some db model n hn hne
      rw [hmain, hv] at h
      exact Option.some_ne_none v h
    · intro h
      rw [hmain]
      show (if min n (tracesFor db model).length = 0 then none else
        (sortAsc (((tracesFor db model).take (min n (tracesFor db model).length)).map
          (fun t => t.latency_ms))).get?
          (19 * (min n (tracesFor db model).length - 1) / 20)) = none
      rw [h]
      simp
  · intro hn hne
    obtain ⟨v, hv⟩ := p95SpecC7_some db model n hn hne
    exact ⟨v, by rw [hmain, hv]⟩

theorem p95LatencyFor_query_witness :
    (1 : Nat) ≤ 50 ∧
    (p95LatencyFor
      [{ id := "t1", user_ref := none, policy := "p", route_primary := "A",
         route_final := "A", latency_ms := 100, tokens := 0,
         cost_usd := { mantissa := 0, exp10 := 0 } }] "A" 50 = none ↔
      tracesFor
        [{ id := "t1", user_ref := none, policy := "p", route_primary := "A",
           route_final := "A", latency_ms := 100, tokens := 0,
           cost_usd := { mantissa := 0, exp10 := 0 } }] "A" = []) :=
  ⟨by decide,
    (p95LatencyFor_query
      [{ id := "t1", user_ref := none, policy := "p", route_primary := "A",
         route_final := "A", latency_ms := 100, tokens := 0,
         cost_usd := { mantissa := 0, exp10 := 0 } }] "A" 50).2.1 (by decide)⟩

/-! ### Route ladder pre-pick (C1) -/

theorem minList_cons_none (y : Int) (ys : List Int) (h : minList ys = none) :
    minList (y :: ys) = some y := by
  show (match minList ys with | none => some y | some m => some (min y m)) = some y
  rw [h]

theorem minList_cons_some (y my : Int) (ys : List Int) (h : minList ys = some my) :
    minList (y :: ys) = some (min y my) := by
  show (match minList ys with | none => some y | some m => some (min y m)) = some (min y my)
  rw [h]

theorem minList_eq_none : ∀ l : List Int, minList l = none ↔ l = [] := by
  intro l
  cases l with
  | nil => simp [minList]
  | cons x xs =>
    constructor
    · intro h
      exfalso
      rcases hxs : minList xs with _ | m
      · rw [minList_cons_none x xs hxs] at h
        simp at h
      · rw [minList_cons_some x m xs hxs] at h
        simp at h
    · intro h
      simp at h

theorem minList_cons_isSome (x : Int) (l : List Int) :
    ∃ m, minList (x :: l) = some m := by
  rcases hl : minList l with _ | m
  · exact ⟨x, minList_cons_none x l hl⟩
  · exact ⟨min x m, minList_cons_some x m l hl⟩

theorem minList_le_mem : ∀ (l : List Int) (m : Int), minList l = some m → ∀ x ∈ l, m ≤ x := by
  intro l
  induction l with
  | nil =>
    intro m h
    simp [minList] at h
  | cons y ys ih =>
    intro m h x hx
    rcases hys : minList ys with _ | my
    · have hempty : ys = [] := (minList_eq_none ys).1 hys
      subst hempty
      rw [minList_cons_none y [] hys] at h
      simp at h hx
      omega
    · rw [minList_cons_some y my ys hys] at h
      simp at h
      rcases List.mem_cons.1 hx with hxy | hxmem
      · subst hxy
        omega
      · have := ih my hys x hxmem
        omega

/-- Skipping a strictly-beaten head: the first minimum of `b :: q :: l`
with `q.2 < b.2` is the first minimum of `q :: l`. -/
theorem argminFirst_skip (b q : String × Int) (l : List (String × Int)) (h : q.2 < b.2) :
    argminFirst (b :: q :: l) = argminFirst (q :: l) := by
  obtain ⟨M, hM⟩ := minList_cons_isSome q.2 (l.map (fun r => r.2))
  have hMle : M ≤ q.2 := minList_le_mem _ _ hM q.2 (by simp)
  have hMb : M < b.2 := by omega
  have hqform : minList ((q :: l).map (fun r => r.2)) = some M := by
    rw [List.map_cons]
    exact hM
  have hfull : minList ((b :: q :: l).map (fun r => r.2)) = some M := by
    rw [List.map_cons]
    rw [minList_cons_some b.2 M _ hqform]
    simp only [Option.some.injEq]
    omega
  unfold argminFirst
  rw [hfull, hqform]
  have hnb : ¬ ((fun r : String × Int => decide (r.2 = M)) b = true) := by
    show ¬ (decide (b.2 = M) = true)
    simp only [decide_eq_true_eq]
    omega
  exact List.find?_cons_of_neg _ hnb

/-- Absorbing a never-chosen later element: with `b.2 ≤ q.2`, the first
minimum of `b :: q :: l` is the first minimum of `b :: l`. -/
theorem argminFirst_absorb (b q : String × Int) (l : List (String × Int)) (h : b.2 ≤ q.2) :
    argminFirst (b :: q :: l) = argminFirst (b :: l) := by
  rcases hrest : minList (l.map (fun r => r.2)) with _ | mr
  · have hq : minList ((q :: l).map (fun r => r.2)) = some q.2 := by
      rw [List.map_cons]
      exact minList_cons_none q.2 _ hrest
    have hfull : minList ((b :: q :: l).map (fun r => r.2)) = some b.2 := by
      rw [List.map_cons]
      rw [minList_cons_some b.2 q.2 _ hq]
      simp only [Option.some.injEq]
      omega
    have hone : minList ((b :: l).map (fun r => r.2)) = some b.2 := by
      rw [List.map_cons]
      exact minList_cons_none b.2 _ hrest
    unfold argminFirst
    rw [hfull, hone]
    have hpos : ((fun r : String × Int => decide (r.2 = b.2)) b) = true := by
      show decide (b.2 = b.2) = true
      exact decide_eq_true rfl
    have h1 : List.find? (fun r : String × Int => decide (r.2 = b.2)) (b :: q :: l) = some b :=
      List.find?_cons_of_pos _ hpos
    have h2 : List.find? (fun r : String × Int => decide (r.2 = b.2)) (b :: l) = some b :=
      List.find?_cons_of_pos _ hpos
    show List.find? (fun r : String × Int => decide (r.2 = b.2)) (b :: q :: l) =
      List.find? (fun r : String × Int => decide (r.2 = b.2)) (b :: l)
    rw [h1, h2]
  · have hq : minList ((q :: l).map (fun r => r.2)) = some (min q.2 mr) := by
      rw [List.map_cons]
      exact minList_cons_some q.2 mr _ hrest
    have hfull : minList ((b :: q :: l).map (fun r => r.2)) = some (min b.2 mr) := by
      rw [List.map_cons]
      rw [minList_cons_some b.2 (min q.2 mr) _ hq]
      simp only [Option.some.injEq]
      omega
    have hone : minList ((b :: l).map (fun r => r.2)) = some (min b.2 mr) := by
      rw [List.map_cons]
      exact minList_cons_some b.2 mr _ hrest
    unfold argminFirst
    rw [hfull, hone]
    by_cases hb : b.2 = min b.2 mr
    · have hpos : ((fun r : String × Int => decide (r.2 = min b.2 mr)) b) = true := by
        show decide (b.2 = min b.2 mr) = true
        exact decide_eq_true hb
      have h1 : List.find? (fun r : String × Int => decide (r.2 = min b.2 mr)) (b :: q :: l)
          = some b := List.find?_cons_of_pos _ hpos
      have h2 : List.find? (fun r : String × Int => decide (r.2 = min b.2 mr)) (b :: l)
          = some b := List.find?_cons_of_pos _ hpos
      show List.find? (fun r : String × Int => decide (r.2 = min b.2 mr)) (b :: q :: l) =
        List.find? (fun r : String × Int => decide (r.2 = min b.2 mr)) (b :: l)
      rw [h1, h2]
    · have hnb : ¬ ((fun r : String × Int => decide (r.2 = min b.2 mr)) b = true) := by
        show ¬ (decide (b.2 = min b.2 mr) = true)
        simp only [decide_eq_true_eq]
        exact hb
      have hnq : ¬ ((fun r : String × Int => decide (r.2 = min b.2 mr)) q = true) := by
        show ¬ (decide (q.2 = min b.2 mr) = true)
        simp only [decide_eq_true_eq]
        omega
      have h1 : List.find? (fun r : String × Int => decide (r.2 = min b.2 mr)) (b :: q :: l)
          = List.find? (fun r : String × Int => decide (r.2 = min b.2 mr)) (q :: l) :=
        List.find?_cons_of_neg _ hnb
      have h2 : List.find? (fun r : String × Int => decide (r.2 = min b.2 mr)) (q :: l)
          = List.find? (fun r : String × Int => decide (r.2 = min b.2 mr)) l :=
        List.find?_cons_of_neg _ hnq
      have h3 : List.find? (fun r : String × Int => decide (r.2 = min b.2 mr)) (b :: l)
          = List.find? (fun r : String × Int => decide (r.2 = min b.2 mr)) l :=
        List.find?_cons_of_neg _ hnb
      show List.find? (fun r : String × Int => decide (r.2 = min b.2 mr)) (b :: q :: l) =
        List.find? (fun r : String × Int => decide (r.2 = min b.2 mr)) (b :: l)
      rw [h1, h2, h3]

/-- The router fold keeps the first strict minimum, which is the claim's
"lowest observed p95, earliest position first" choice. -/
theorem fastest_fold_eq (db : List TraceRow) (n : Nat) :
    ∀ (models : List String) (acc : Option (String × Int)),
      (models.foldl (fun best m =>
        match p95LatencyFor db m n with
        | none => best
        | some p =>
          match best with
          | none => some (m, p)
          | some (bm, bp) => if p < bp then some (m, p) else some (bm, bp)) acc)
      = argminFirst (acc.toList ++
          models.filterMap (fun m => (p95LatencyFor db m n).map (fun p => (m, p)))) := by
  intro models
  induction models with
  | nil =>
    intro acc
    cases acc with
    | none => rfl
    | some b =>
      simp only [List.foldl_nil, Option.toList_some, List.filterMap_nil, List.append_nil]
      unfold argminFirst
      rw [List.map_cons, List.map_nil, minList_cons_none b.2 [] rfl]
      simp [List.find?]
  | cons m ms ih =>
    intro acc
    rw [List.foldl_cons, List.filterMap_cons]
    cases hp : p95LatencyFor db m n with
    | none =>
      simp only [hp, Option.map_none']
      exact ih acc
    | some p =>
      simp only [hp, Option.map_some']
      cases acc with
      | none =>
        have hih := ih (some (m, p))
        simp only [Option.toList_some] at hih
        simpa using hih
      | some b =>
        obtain ⟨bm, bp⟩ := b
        by_cases hlt : p < bp
        · simp only [if_pos hlt]
          have hih := ih (some (m, p))
          simp only [Option.toList_some] at hih ⊢
          rw [hih]
          exact (argminFirst_skip (bm, bp) (m, p) _ (by simpa using hlt)).symm
        · simp only [if_neg hlt]
          have hih := ih (some (bm, bp))
          simp only [Option.toList_some] at hih ⊢
          rw [hih]
          refine (argminFirst_absorb (bm, bp) (m, p) _ ?_).symm
          simp
          omega

theorem fastestByRecentP95_eq_claim (db : List TraceRow) (models : List String) (n : Nat) :
    fastestByRecentP95 db models n = claimFastestBackup db models n := by
  unfold fastestByRecentP95 claimFastestBackup
  have hfold := fastest_fold_eq db n models none
  simp only [Option.toList_none, List.nil_append] at hfold
  rw [hfold]

/-- C1 as amended: the ladder is reordered exactly when the primary p95
exists with at least 10 recent samples, exceeds the target, AND some
backup has an observed p95; the reordered ladder prepends the backup with
the lowest observed p95 (earliest position on ties) and keeps the rest in
configured order; in every other case (including 9 samples, and including
no backup with an observed p95) the ladder is `primary ++ backups`
unchanged. -/
theorem buildLadder_eq_claim (db : List TraceRow) (plan : RoutePlan) (targetP95 : Int)
    (n : Nat) : buildLadder db plan targetP95 n = claimLadderC1 db plan targetP95 n := by
  simp only [buildLadder, claimLadderC1]
  rw [fastestByRecentP95_eq_claim]
  cases hp : p95LatencyFor db (plan.primary.headD "") n with
  | none => cases claimFastestBackup db plan.backups n <;> rfl
  | some p =>
    cases hf : claimFastestBackup db plan.backups n with
    | none =>
      by_cases hcond : 10 ≤ recentSampleCount db (plan.primary.headD "") n ∧ targetP95 < p
      · simp [hcond]
      · simp [hcond]
    | some fb =>
      by_cases hcond : 10 ≤ recentSampleCount db (plan.primary.headD "") n ∧ targetP95 < p
      · simp [hcond]
      · simp [hcond]

/-- C1 counterexample: primary "A" has 10 recent samples with p95 900
above the target 500, yet no backup has any observed p95, so the claim's
reorder condition holds while the code leaves the ladder unchanged (and
the claimed "backup with the lowest observed p95" does not exist). -/
theorem buildLadder_counterexample :
    p95LatencyFor (List.replicate 10
      { id := "t", user_ref := none, policy := "p", route_primary := "A",
        route_final := "A", latency_ms := 900, tokens := 0,
        cost_usd := { mantissa := 0, exp10 := 0 } }) "A" 50 = some 900 ∧
    recentSampleCount (List.replicate 10
      { id := "t", user_ref := none, policy := "p", route_primary := "A",
        route_final := "A", latency_ms := 900, tokens := 0,
        cost_usd := { mantissa := 0, exp10 := 0 } }) "A" 50 = 10 ∧
    (500 : Int) < 900 ∧
    fastestByRecentP95 (List.replicate 10
      { id := "t", user_ref := none, policy := "p", route_primary := "A",
        route_final := "A", latency_ms := 900, tokens := 0,
        cost_usd := { mantissa := 0, exp10 := 0 } }) ["B"] 50 = none ∧
    buildLadder (List.replicate 10
      { id := "t", user_ref := none, policy := "p", route_primary := "A",
        route_final := "A", latency_ms := 900, tokens := 0,
        cost_usd := { mantissa := 0, exp10 := 0 } })
      { primary := ["A"], backups := ["B"] } 500 50 = ["A", "B"] :=
  ⟨rfl, rfl, by decide, rfl, rfl⟩

/-! ### List-shape helper lemmas (for the redaction proofs, C8) -/

theorem listPre_take (n : Nat) (l : List Char) : ListPre (l.take n) l :=
  ⟨l.drop n, List.take_append_drop n l⟩

theorem listPre_nil (l : List Char) : ListPre [] l := ⟨l, rfl⟩

theorem listPre_cons_of (x : Char) (p l : List Char) (h : ListPre p l) :
    ListPre (x :: p) (x :: l) := by
  obtain ⟨t, ht⟩ := h
  exact ⟨t, by simp [ht]⟩

theorem listPre_cons_cases (p : List Char) (y : Char) (l : List Char)
    (h : ListPre p (y :: l)) : p = [] ∨ ∃ p', p = y :: p' ∧ ListPre p' l := by
  obtain ⟨t, ht⟩ := h
  cases p with
  | nil => exact Or.inl rfl
  | cons x xs =>
    simp only [List.cons_append, List.cons.injEq] at ht
    exact Or.inr ⟨xs, by rw [ht.1], ⟨t, ht.2⟩⟩

theorem listSub_nil_eq (m : List Char) (h : ListSub m []) : m = [] := by
  obtain ⟨u, v, huv⟩ := h
  rw [List.append_assoc] at huv
  rcases List.append_eq_nil.1 huv with ⟨hu, hmv⟩
  rcases List.append_eq_nil.1 hmv with ⟨hm, hv⟩
  exact hm

theorem listSub_of_pre (m l : List Char) (h : ListPre m l) : ListSub m l := by
  obtain ⟨t, ht⟩ := h
  exact ⟨[], t, by simpa using ht⟩

theorem listSub_of_suf (m l : List Char) (h : ListSuf m l) : ListSub m l := by
  obtain ⟨u, hu⟩ := h
  exact ⟨u, [], by simpa using hu⟩

theorem listSub_append_left (m u v : List Char) (h : ListSub m v) : ListSub m (u ++ v) := by
  obtain ⟨x, y, hxy⟩ := h
  exact ⟨u ++ x, y, by rw [← hxy]; simp⟩

theorem listSub_cons_of (m : List Char) (c : Char) (l : List Char) (h : ListSub m l) :
    ListSub m (c :: l) := listSub_append_left m [c] l h

theorem listSub_drop (m : List Char) (n : Nat) (l : List Char) (h : ListSub m (l.drop n)) :
    ListSub m l := by
  have h2 := listSub_append_left m (l.take n) (l.drop n) h
  rwa [List.take_append_drop] at h2

theorem listSub_mem (m l : List Char) (c : Char) (hsub : ListSub m l) (hc : c ∈ m) :
    c ∈ l := by
  obtain ⟨u, v, huv⟩ := hsub
  rw [← huv]
  simp only [List.append_assoc, List.mem_append]
  exact Or.inr (Or.inl hc)

theorem listSub_cons_cases (m : List Char) (y : Char) (l : List Char)
    (h : ListSub m (y :: l)) : ListPre m (y :: l) ∨ ListSub m l := by
  obtain ⟨u, v, huv⟩ := h
  cases u with
  | nil => exact Or.inl ⟨v, by simpa using huv⟩
  | cons x xs =>
    simp only [List.cons_append, List.cons.injEq] at huv
    exact Or.inr ⟨xs, v, huv.2⟩

theorem listSuf_getLast? (m l : List Char) (hm : m ≠ []) (h : ListSuf m l) :
    l.getLast? = m.getLast? := by
  obtain ⟨u, hu⟩ := h
  rw [← hu]
  exact List.getLast?_append_of_ne_nil u hm

theorem getLast?_some_mem (l : List Char) (a : Char) (h : l.getLast? = some a) : a ∈ l := by
  induction l with
  | nil => exact Option.noConfusion h
  | cons x xs ih =>
    cases xs with
    | nil =>
      have h' : (some x : Option Char) = some a := h
      have hx : x = a := by injection h'
      rw [← hx]
      simp
    | cons y ys =>
      rw [List.getLast?_cons_cons] at h
      exact List.mem_cons_of_mem x (ih h)

theorem exists_getLast?_of_ne_nil (l : List Char) (h : l ≠ []) :
    ∃ a, l.getLast? = some a := by
  induction l with
  | nil => exact absurd rfl h
  | cons x xs ih =>
    cases xs with
    | nil => exact ⟨x, rfl⟩
    | cons y ys =>
      obtain ⟨a, ha⟩ := ih (by simp)
      exact ⟨a, by rw [List.getLast?_cons_cons]; exact ha⟩

theorem listSub_append_decomp (m u v : List Char) (h : ListSub m (u ++ v)) :
    ListSub m u ∨ ListSub m v ∨
      ∃ m1 m2, m = m1 ++ m2 ∧ m1 ≠ [] ∧ m2 ≠ [] ∧ ListSuf m1 u ∧ ListPre m2 v := by
  obtain ⟨x, y, hxy⟩ := h
  have hxy' : x ++ (m ++ y) = u ++ v := by rw [← hxy]; simp
  rcases List.append_eq_append_iff.1 hxy' with ⟨a, hu, hmy⟩ | ⟨c, _, hv⟩
  · rcases List.append_eq_append_iff.1 hmy with ⟨b, ha, _⟩ | ⟨b, hm, hv2⟩
    · left
      exact ⟨x, b, by rw [hu, ha]; simp⟩
    · cases hae : a with
      | nil =>
        right; left
        refine ⟨[], y, ?_⟩
        rw [hae] at hm
        simp only [List.nil_append] at hm
        rw [hv2, ← hm]
        simp
      | cons a0 as =>
        cases hbe : b with
        | nil =>
          left
          refine listSub_of_suf m u ⟨x, ?_⟩
          rw [hu, hm, hbe]
          simp
        | cons b0 bs =>
          right; right
          refine ⟨a, b, hm, by simp [hae], by simp [hbe], ⟨x, hu.symm⟩, ⟨y, hv2.symm⟩⟩
  · right; left
    exact ⟨c, y, by rw [hv]; simp⟩

/-! ### Generic properties of one global-replace pass (C8) -/

theorem replaceAllF_nil (matchAt : List Char → Option Nat) (token : List Char) :
    ∀ f, replaceAllF matchAt token f [] = [] := by
  intro f
  cases f <;> rfl

theorem replaceAllF_fuel (matchAt : List Char → Option Nat) (token : List Char)
    (hpos : ∀ cs n, matchAt cs = some n → 1 ≤ n ∧ n ≤ cs.length) :
    ∀ (N : Nat) (cs : List Char), cs.length ≤ N → ∀ f f', cs.length ≤ f → cs.length ≤ f' →
      replaceAllF matchAt token f cs = replaceAllF matchAt token f' cs := by
  intro N
  induction N with
  | zero =>
    intro cs hN f f' _ _
    have hnil : cs = [] := List.length_eq_zero.1 (Nat.le_zero.1 hN)
    subst hnil
    rw [replaceAllF_nil, replaceAllF_nil]
  | succ N ih =>
    intro cs hN f f' hf hf'
    cases cs with
    | nil => rw [replaceAllF_nil, replaceAllF_nil]
    | cons c rest =>
      cases f with
      | zero => simp at hf
      | succ a =>
        cases f' with
        | zero => simp at hf'
        | succ b =>
          show (match matchAt (c :: rest) with
            | some n => token ++ replaceAllF matchAt token a ((c :: rest).drop n)
            | none => c :: replaceAllF matchAt token a rest) =
            (match matchAt (c :: rest) with
            | some n => token ++ replaceAllF matchAt token b ((c :: rest).drop n)
            | none => c :: replaceAllF matchAt token b rest)
          cases hm : matchAt (c :: rest) with
          | none =>
            have hr := ih rest (by simp at hN; omega) a b
              (by simp at hf; omega) (by simp at hf'; omega)
            show c :: replaceAllF matchAt token a rest =
              c :: replaceAllF matchAt token b rest
            rw [hr]
          | some n =>
            obtain ⟨h1, h2⟩ := hpos _ n hm
            simp only [List.length_cons] at hN hf hf' h2
            have hr := ih ((c :: rest).drop n)
              (by rw [List.length_drop]; simp; omega) a b
              (by rw [List.length_drop]; simp; omega)
              (by rw [List.length_drop]; simp; omega)
            show token ++ replaceAllF matchAt token a ((c :: rest).drop n) =
              token ++ replaceAllF matchAt token b ((c :: rest).drop n)
            rw [hr]

theorem replaceAll_nil (matchAt : List Char → Option Nat) (token : List Char) :
    replaceAll matchAt token [] = [] := rfl

theorem replaceAll_cons_some (matchAt : List Char → Option Nat) (token : List Char)
    (hpos : ∀ cs n, matchAt cs = some n → 1 ≤ n ∧ n ≤ cs.length)
    (c : Char) (rest : List Char) (n : Nat) (hm : matchAt (c :: rest) = some n) :
    replaceAll matchAt token (c :: rest) =
      token ++ replaceAll matchAt token ((c :: rest).drop n) := by
  obtain ⟨h1, h2⟩ := hpos _ n hm
  show replaceAllF matchAt token (rest.length + 1) (c :: rest) = _
  have hstep : replaceAllF matchAt token (rest.length + 1) (c :: rest) =
      token ++ replaceAllF matchAt token rest.length ((c :: rest).drop n) := by
    show (match matchAt (c :: rest) with
      | some k => token ++ replaceAllF matchAt token rest.length ((c :: rest).drop k)
      | none => c :: replaceAllF matchAt token rest.length rest) = _
    rw [hm]
  rw [hstep]
  have hfuel := replaceAllF_fuel matchAt token hpos ((c :: rest).drop n).length
    ((c :: rest).drop n) (le_refl _) rest.length ((c :: rest).drop n).length
    (by rw [List.length_drop]; simp at h2 ⊢; omega) (le_refl _)
  rw [hfuel]
  rfl

theorem replaceAll_cons_none (matchAt : List Char → Option Nat) (token : List Char)
    (c : Char) (rest : List Char) (hm : matchAt (c :: rest) = none) :
    replaceAll matchAt token (c :: rest) = c :: replaceAll matchAt token rest := by
  have hdef : replaceAll matchAt token (c :: rest) =
      (match matchAt (c :: rest) with
      | some k => token ++ replaceAllF matchAt token rest.length ((c :: rest).drop k)
      | none => c :: replaceAllF matchAt token rest.length rest) := rfl
  rw [hdef, hm]
  rfl

/-- Alphabet-only prefixes of a replaced string are prefixes of the
original: the replacement token's head is outside the alphabet, so such a
prefix cannot reach into any replacement. -/
theorem listPre_head_eq (x : Char) (xs : List Char) (y : Char) (ys : List Char)
    (h : ListPre (x :: xs) (y :: ys)) : x = y := by
  obtain ⟨t, ht⟩ := h
  simp only [List.cons_append, List.cons.injEq] at ht
  exact ht.1

theorem replaceAll_alpha_pre (matchAt : List Char → Option Nat) (token : List Char)
    (alphaCh : Char → Bool)
    (hpos : ∀ cs n, matchAt cs = some n → 1 ≤ n ∧ n ≤ cs.length)
    (tokNe : token ≠ [])
    (tokHead : ∀ c, token.head? = some c → alphaCh c = false) :
    ∀ cs p, ListPre p (replaceAll matchAt token cs) → (∀ c ∈ p, alphaCh c = true) →
      ListPre p cs := by
  have H : ∀ (N : Nat) (cs : List Char), cs.length ≤ N →
      ∀ p, ListPre p (replaceAll matchAt token cs) → (∀ c ∈ p, alphaCh c = true) →
        ListPre p cs := by
    intro N
    induction N with
    | zero =>
      intro cs hN p hpre _
      have hnil : cs = [] := List.length_eq_zero.1 (Nat.le_zero.1 hN)
      subst hnil
      rw [replaceAll_nil] at hpre
      obtain ⟨t, ht⟩ := hpre
      have : p = [] := by
        cases p with
        | nil => rfl
        | cons a b => simp at ht
      rw [this]
      exact listPre_nil []
    | succ N ih =>
      intro cs hN p hpre halpha
      cases cs with
      | nil =>
        rw [replaceAll_nil] at hpre
        obtain ⟨t, ht⟩ := hpre
        have hp : p = [] := by
          cases p with
          | nil => rfl
          | cons a b => simp at ht
        rw [hp]
        exact listPre_nil []
      | cons c rest =>
        cases hm : matchAt (c :: rest) with
        | some n =>
          rw [replaceAll_cons_some matchAt token hpos c rest n hm] at hpre
          cases hpc : p with
          | nil => exact listPre_nil _
          | cons p0 ps =>
            subst hpc
            obtain ⟨t0, ts, htok⟩ : ∃ t0 ts, token = t0 :: ts := by
              cases token with
              | nil => exact absurd rfl tokNe
              | cons a b => exact ⟨a, b, rfl⟩
            have hhead : p0 = t0 := by
              apply listPre_head_eq p0 ps t0
                (ts ++ replaceAll matchAt (t0 :: ts) ((c :: rest).drop n))
              rw [htok] at hpre
              simpa using hpre
            have hfalse : alphaCh t0 = false := tokHead t0 (by rw [htok]; rfl)
            have htrue : alphaCh p0 = true := halpha p0 (by simp)
            rw [hhead] at htrue
            rw [htrue] at hfalse
            simp at hfalse
        | none =>
          rw [replaceAll_cons_none matchAt token c rest hm] at hpre
          rcases listPre_cons_cases p c (replaceAll matchAt token rest) hpre with hnil | ⟨p', hp', hpre'⟩
          · rw [hnil]
            exact listPre_nil _
          · have hrec := ih rest (by simp at hN; omega) p' hpre'
              (fun x hx => halpha x (by rw [hp']; exact List.mem_cons_of_mem c hx))
            rw [hp']
            exact listPre_cons_of c p' rest hrec
  exact fun cs => H cs.length cs (le_refl _)

/-- After one global-replace pass, no match of the replacing language
remains anywhere in the output: matches cannot survive inside kept runs
(the scan would have found them), cannot sit inside the token, and cannot
cross the token's boundary characters, which lie outside the language's
alphabet. -/
theorem replaceAll_noOcc (matchAt : List Char → Option Nat) (token : List Char)
    (L : List Char → Prop) (alphaCh : Char → Bool)
    (hpos : ∀ cs n, matchAt cs = some n → 1 ≤ n ∧ n ≤ cs.length)
    (hComplete : ∀ m cs, L m → ListPre m cs → matchAt cs ≠ none)
    (hAlpha : ∀ m, L m → ∀ c ∈ m, alphaCh c = true)
    (hLne : ∀ m, L m → m ≠ [])
    (tokNe : token ≠ [])
    (tokHead : ∀ c, token.head? = some c → alphaCh c = false)
    (tokLast : ∀ c, token.getLast? = some c → alphaCh c = false)
    (tokNoSub : ∀ m, L m → ¬ ListSub m token) :
    ∀ cs m, L m → ¬ ListSub m (replaceAll matchAt token cs) := by
  have H : ∀ (N : Nat) (cs : List Char), cs.length ≤ N →
      ∀ m, L m → ¬ ListSub m (replaceAll matchAt token cs) := by
    intro N
    induction N with
    | zero =>
      intro cs hN m hm hsub
      have hnil : cs = [] := List.length_eq_zero.1 (Nat.le_zero.1 hN)
      subst hnil
      rw [replaceAll_nil] at hsub
      exact hLne m hm (listSub_nil_eq m hsub)
    | succ N ih =>
      intro cs hN m hm hsub
      cases cs with
      | nil =>
        rw [replaceAll_nil] at hsub
        exact hLne m hm (listSub_nil_eq m hsub)
      | cons c rest =>
        cases hmt : matchAt (c :: rest) with
        | some n =>
          rw [replaceAll_cons_some matchAt token hpos c rest n hmt] at hsub
          rcases listSub_append_decomp m token
              (replaceAll matchAt token ((c :: rest).drop n)) hsub with
            h | h | ⟨m1, m2, hm12, hm1ne, _, hsuf, _⟩
          · exact tokNoSub m hm h
          · obtain ⟨h1, h2⟩ := hpos _ n hmt
            refine ih ((c :: rest).drop n) ?_ m hm h
            rw [List.length_drop]
            simp at hN ⊢
            omega
          · have hlast : token.getLast? = m1.getLast? := listSuf_getLast? m1 token hm1ne hsuf
            obtain ⟨a, ha⟩ := exists_getLast?_of_ne_nil m1 hm1ne
            have hmemm : a ∈ m := by
              rw [hm12]
              exact List.mem_append.2 (Or.inl (getLast?_some_mem m1 a ha))
            have htrue : alphaCh a = true := hAlpha m hm a hmemm
            have hfalse : alphaCh a = false := tokLast a (by rw [hlast]; exact ha)
            rw [htrue] at hfalse
            exact Bool.noConfusion hfalse
        | none =>
          rw [replaceAll_cons_none matchAt token c rest hmt] at hsub
          rcases listSub_cons_cases m c (replaceAll matchAt token rest) hsub with hpre | hsub'
          · rcases listPre_cons_cases m c (replaceAll matchAt token rest) hpre with
              hnil | ⟨m', hm', hpre'⟩
            · exact hLne m hm hnil
            · have halpha' : ∀ x ∈ m', alphaCh x = true := fun x hx =>
                hAlpha m hm x (by rw [hm']; exact List.mem_cons_of_mem c hx)
              have hpre'' : ListPre m' rest :=
                replaceAll_alpha_pre matchAt token alphaCh hpos tokNe tokHead rest m'
                  hpre' halpha'
              have hprem : ListPre m (c :: rest) := by
                rw [hm']
                exact listPre_cons_of c m' rest hpre''
              exact hComplete m (c :: rest) hm hprem hmt
          · exact ih rest (by simp at hN; omega) m hm hsub'
  exact fun cs => H cs.length cs (le_refl _)

/-- A replacement pass for one pattern cannot create a match of another
language whose alphabet excludes the token's boundary characters. -/
theorem replaceAll_preserve (matchAt : List Char → Option Nat) (token : List Char)
    (L1 : List Char → Prop) (alpha1 : Char → Bool)
    (hpos : ∀ cs n, matchAt cs = some n → 1 ≤ n ∧ n ≤ cs.length)
    (hAlpha1 : ∀ m, L1 m → ∀ c ∈ m, alpha1 c = true)
    (hL1ne : ∀ m, L1 m → m ≠ [])
    (tokNe : token ≠ [])
    (tokHead : ∀ c, token.head? = some c → alpha1 c = false)
    (tokLast : ∀ c, token.getLast? = some c → alpha1 c = false)
    (tokNoSub : ∀ m, L1 m → ¬ ListSub m token) :
    ∀ t, (∀ m, L1 m → ¬ ListSub m t) →
      ∀ m, L1 m → ¬ ListSub m (replaceAll matchAt token t) := by
  have H : ∀ (N : Nat) (t : List Char), t.length ≤ N → (∀ m, L1 m → ¬ ListSub m t) →
      ∀ m, L1 m → ¬ ListSub m (replaceAll matchAt token t) := by
    intro N
    induction N with
    | zero =>
      intro t hN _ m hm hsub
      have hnil : t = [] := List.length_eq_zero.1 (Nat.le_zero.1 hN)
      subst hnil
      rw [replaceAll_nil] at hsub
      exact hL1ne m hm (listSub_nil_eq m hsub)
    | succ N ih =>
      intro t hN hno m hm hsub
      cases t with
      | nil =>
        rw [replaceAll_nil] at hsub
        exact hL1ne m hm (listSub_nil_eq m hsub)
      | cons c rest =>
        cases hmt : matchAt (c :: rest) with
        | some n =>
          rw [replaceAll_cons_some matchAt token hpos c rest n hmt] at hsub
          rcases listSub_append_decomp m token
              (replaceAll matchAt token ((c :: rest).drop n)) hsub with
            h | h | ⟨m1, m2, hm12, hm1ne, _, hsuf, _⟩
          · exact tokNoSub m hm h
          · obtain ⟨h1, h2⟩ := hpos _ n hmt
            refine ih ((c :: rest).drop n) ?_
              (fun m' hm' hs => hno m' hm' (listSub_drop m' n (c :: rest) hs)) m hm h
            rw [List.length_drop]
            simp at hN ⊢
            omega
          · have hlast : token.getLast? = m1.getLast? := listSuf_getLast? m1 token hm1ne hsuf
            obtain ⟨a, ha⟩ := exists_getLast?_of_ne_nil m1 hm1ne
            have hmemm : a ∈ m := by
              rw [hm12]
              exact List.mem_append.2 (Or.inl (getLast?_some_mem m1 a ha))
            have htrue : alpha1 a = true := hAlpha1 m hm a hmemm
            have hfalse : alpha1 a = false := tokLast a (by rw [hlast]; exact ha)
            rw [htrue] at hfalse
            exact Bool.noConfusion hfalse
        | none =>
          rw [replaceAll_cons_none matchAt token c rest hmt] at hsub
          rcases listSub_cons_cases m c (replaceAll matchAt token rest) hsub with hpre | hsub'
          · rcases listPre_cons_cases m c (replaceAll matchAt token rest) hpre with
              hnil | ⟨m', hm', hpre'⟩
            · exact hL1ne m hm hnil
            · have halpha' : ∀ x ∈ m', alpha1 x = true := fun x hx =>
                hAlpha1 m hm x (by rw [hm']; exact List.mem_cons_of_mem c hx)
              have hpre'' : ListPre m' rest :=
                replaceAll_alpha_pre matchAt token alpha1 hpos tokNe tokHead rest m'
                  hpre' halpha'
              have hprem : ListPre m (c :: rest) := by
                rw [hm']
                exact listPre_cons_of c m' rest hpre''
              exact hno m hm (listSub_of_pre m (c :: rest) hprem)
          · exact ih rest (by simp at hN; omega)
              (fun m' hm' hs => hno m' hm' (listSub_cons_of m' c rest hs)) m hm hsub'
  exact fun t => H t.length t (le_refl _)

/-- A text with no match of the replacing language is a fixed point of the
replacement pass. -/
theorem replaceAll_fix (matchAt : List Char → Option Nat) (token : List Char)
    (L : List Char → Prop)
    (hpos : ∀ cs n, matchAt cs = some n → 1 ≤ n ∧ n ≤ cs.length)
    (hSound : ∀ cs n, matchAt cs = some n → L (cs.take n)) :
    ∀ t, (∀ m, L m → ¬ ListSub m t) → replaceAll matchAt token t = t := by
  have H : ∀ (N : Nat) (t : List Char), t.length ≤ N →
      (∀ m, L m → ¬ ListSub m t) → replaceAll matchAt token t = t := by
    intro N
    induction N with
    | zero =>
      intro t hN _
      have hnil : t = [] := List.length_eq_zero.1 (Nat.le_zero.1 hN)
      subst hnil
      exact replaceAll_nil matchAt token
    | succ N ih =>
      intro t hN hno
      cases t with
      | nil => exact replaceAll_nil matchAt token
      | cons c rest =>
        cases hmt : matchAt (c :: rest) with
        | some n =>
          exfalso
          exact hno _ (hSound _ n hmt)
            (listSub_of_pre _ _ (listPre_take n (c :: rest)))
        | none =>
          rw [replaceAll_cons_none matchAt token c rest hmt]
          rw [ih rest (by simp at hN; omega)
            (fun m hm hs => hno m hm (listSub_cons_of m c rest hs))]
  exact fun t => H t.length t (le_refl _)

/-! ### Character-run and list-index helpers (C8) -/

theorem countWhile_cons_true (p : Char → Bool) (a : Char) (rest : List Char)
    (h : p a = true) : countWhile p (a :: rest) = countWhile p rest + 1 := by
  simp [countWhile, h]

theorem countWhile_cons_false (p : Char → Bool) (a : Char) (rest : List Char)
    (h : p a = false) : countWhile p (a :: rest) = 0 := by
  simp [countWhile, h]

theorem countWhile_le_length (p : Char → Bool) : ∀ cs : List Char, countWhile p cs ≤ cs.length := by
  intro cs
  induction cs with
  | nil => simp [countWhile]
  | cons a rest ih =>
    cases hp : p a
    · rw [countWhile_cons_false p a rest hp]
      simp
    · rw [countWhile_cons_true p a rest hp]
      simp only [List.length_cons]
      omega

theorem countWhile_take_le (p : Char → Bool) : ∀ (cs : List Char) (i : Nat),
    i ≤ countWhile p cs → ∀ c ∈ cs.take i, p c = true := by
  intro cs
  induction cs with
  | nil =>
    intro i _ c hc
    simp at hc
  | cons a rest ih =>
    intro i hi c hc
    cases hp : p a
    · rw [countWhile_cons_false p a rest hp] at hi
      have h0 : i = 0 := Nat.le_zero.1 hi
      subst h0
      simp at hc
    · cases i with
      | zero => simp at hc
      | succ i' =>
        rw [countWhile_cons_true p a rest hp] at hi
        rcases List.mem_cons.1 (by simpa using hc) with rfl | hc'
        · exact hp
        · exact ih i' (Nat.le_of_succ_le_succ hi) c hc'

theorem countWhile_stop (p : Char → Bool) : ∀ (cs : List Char) (c : Char),
    cs.get? (countWhile p cs) = some c → p c = false := by
  intro cs
  induction cs with
  | nil =>
    intro c h
    simp at h
  | cons a rest ih =>
    intro c h
    cases hp : p a
    · rw [countWhile_cons_false p a rest hp] at h
      have h' : some a = some c := h
      have ha : a = c := by injection h'
      rw [← ha]
      exact hp
    · rw [countWhile_cons_true p a rest hp] at h
      exact ih c h

theorem countWhile_le_of_stop (p : Char → Bool) : ∀ (cs : List Char) (i : Nat) (c : Char),
    cs.get? i = some c → p c = false → countWhile p cs ≤ i := by
  intro cs
  induction cs with
  | nil =>
    intro i c h _
    simp at h
  | cons a rest ih =>
    intro i c h hf
    cases hp : p a
    · rw [countWhile_cons_false p a rest hp]
      exact Nat.zero_le i
    · cases i with
      | zero =>
        have h' : some a = some c := h
        have ha : a = c := by injection h'
        rw [ha] at hp
        rw [hp] at hf
        exact Bool.noConfusion hf
      | succ i' =>
        have h' : rest.get? i' = some c := h
        rw [countWhile_cons_true p a rest hp]
        exact Nat.succ_le_succ (ih i' c h' hf)

theorem countWhile_pre_le (p : Char → Bool) : ∀ (m cs : List Char), ListPre m cs →
    (∀ c ∈ m, p c = true) → m.length ≤ countWhile p cs := by
  intro m
  induction m with
  | nil =>
    intro cs _ _
    simp
  | cons a ms ih =>
    intro cs hpre hall
    obtain ⟨t, ht⟩ := hpre
    cases cs with
    | nil => simp at ht
    | cons b rest =>
      have hab : a = b := listPre_head_eq a ms b rest ⟨t, ht⟩
      have hpb : p b = true := hab ▸ hall a (List.mem_cons_self a ms)
      have hpre' : ListPre ms rest := by
        refine ⟨t, ?_⟩
        simp only [List.cons_append, List.cons.injEq] at ht
        exact ht.2
      have hih := ih rest hpre' (fun c hc => hall c (List.mem_cons_of_mem a hc))
      rw [countWhile_cons_true p b rest hpb]
      simp only [List.length_cons]
      omega

theorem countWhile_two (p : Char → Bool) (cs : List Char)
    (h0 : ∃ c, cs.get? 0 = some c ∧ p c = true)
    (h1 : ∃ c, cs.get? 1 = some c ∧ p c = true) : 2 ≤ countWhile p cs := by
  obtain ⟨c0, hg0, hp0⟩ := h0
  obtain ⟨c1, hg1, hp1⟩ := h1
  cases cs with
  | nil => simp at hg0
  | cons a rest =>
    cases rest with
    | nil => simp at hg1
    | cons b rest2 =>
      have ha : a = c0 := by
        have h' : some a = some c0 := hg0
        injection h'
      have hb : b = c1 := by
        have h' : some b = some c1 := hg1
        injection h'
      rw [← ha] at hp0
      rw [← hb] at hp1
      rw [countWhile_cons_true p a _ hp0, countWhile_cons_true p b _ hp1]
      omega

theorem get?_some_lt (cs : List Char) : ∀ (i : Nat) (c : Char), cs.get? i = some c →
    i < cs.length := by
  induction cs with
  | nil =>
    intro i c h
    simp at h
  | cons a rest ih =>
    intro i c h
    cases i with
    | zero => simp
    | succ i' => exact Nat.succ_lt_succ (ih i' c h)

theorem drop_eq_cons_of_get? (cs : List Char) : ∀ (i : Nat) (c : Char),
    cs.get? i = some c → cs.drop i = c :: cs.drop (i + 1) := by
  induction cs with
  | nil =>
    intro i c h
    simp at h
  | cons a rest ih =>
    intro i c h
    cases i with
    | zero =>
      have h' : some a = some c := h
      have ha : a = c := by injection h'
      rw [← ha]
      rfl
    | succ i' => exact ih i' c h

theorem get?_append_self (a : List Char) (c : Char) (r : List Char) :
    (a ++ c :: r).get? a.length = some c := by
  induction a with
  | nil => rfl
  | cons x xs ih => exact ih

theorem get?_append_after (a : List Char) (c : Char) (r : List Char) : ∀ i : Nat,
    (a ++ c :: r).get? (i + a.length + 1) = r.get? i := by
  induction a with
  | nil => intro i; rfl
  | cons x xs ih => intro i; exact ih i

theorem drop_append_cons (a : List Char) (c : Char) (r : List Char) :
    (a ++ c :: r).drop (a.length + 1) = r := by
  induction a with
  | nil => rfl
  | cons x xs ih => exact ih

theorem take_append_len (A B : List Char) (n : Nat) :
    (A ++ B).take (n + A.length) = A ++ B.take n := by
  induction A generalizing n with
  | nil => rfl
  | cons x xs ih =>
    show (x :: (xs ++ B)).take (n + xs.length + 1) = x :: (xs ++ B.take n)
    rw [List.take_succ_cons, ih]

theorem natList_getLast?_mem (l : List Nat) : ∀ a : Nat, l.getLast? = some a → a ∈ l := by
  induction l with
  | nil =>
    intro a h
    exact Option.noConfusion h
  | cons x xs ih =>
    intro a h
    cases xs with
    | nil =>
      have h' : (some x : Option Nat) = some a := h
      have hx : x = a := by injection h'
      rw [← hx]
      simp
    | cons y ys =>
      rw [List.getLast?_cons_cons] at h
      exact List.mem_cons_of_mem x (ih a h)

theorem natList_exists_getLast? (l : List Nat) (h : l ≠ []) :
    ∃ a, l.getLast? = some a := by
  induction l with
  | nil => exact absurd rfl h
  | cons x xs ih =>
    cases xs with
    | nil => exact ⟨x, rfl⟩
    | cons y ys =>
      obtain ⟨a, ha⟩ := ih (by simp)
      exact ⟨a, by rw [List.getLast?_cons_cons]; exact ha⟩

/-! ### The email matcher: positivity, soundness, completeness (C8) -/

theorem emailDotSearch_spec (rest : List Char) : ∀ (bound j : Nat),
    emailDotSearch rest bound = some j →
    1 ≤ j ∧ j ≤ bound ∧ emailDotOk rest j = true := by
  intro bound
  induction bound with
  | zero =>
    intro j h
    exact Option.noConfusion h
  | succ b ih =>
    intro j h
    rw [show emailDotSearch rest (b + 1) =
      (if emailDotOk rest (b + 1) then some (b + 1) else emailDotSearch rest b) from rfl] at h
    cases hok : emailDotOk rest (b + 1)
    · rw [hok] at h
      simp at h
      obtain ⟨h1, h2, h3⟩ := ih j h
      exact ⟨h1, Nat.le_succ_of_le h2, h3⟩
    · rw [hok] at h
      simp at h
      rw [← h]
      exact ⟨Nat.succ_le_succ (Nat.zero_le b), le_refl _, hok⟩

theorem emailDotSearch_ne_none (rest : List Char) : ∀ (bound j : Nat), 1 ≤ j → j ≤ bound →
    emailDotOk rest j = true → emailDotSearch rest bound ≠ none := by
  intro bound
  induction bound with
  | zero =>
    intro j h1 h2 _
    omega
  | succ b ih =>
    intro j h1 h2 hok
    rw [show emailDotSearch rest (b + 1) =
      (if emailDotOk rest (b + 1) then some (b + 1) else emailDotSearch rest b) from rfl]
    cases hok2 : emailDotOk rest (b + 1)
    · have hjb : j ≤ b := by
        by_contra hc
        have he : j = b + 1 := by omega
        rw [he, hok2] at hok
        exact Bool.noConfusion hok
      simp
      exact ih j h1 hjb hok
    · simp

theorem emailDotOk_dot (rest : List Char) (j : Nat) (h : emailDotOk rest j = true) :
    rest.get? j = some '.' := by
  unfold emailDotOk at h
  simp only [Bool.and_eq_true, decide_eq_true_eq] at h
  exact h.1.1

theorem emailDotOk_alpha1 (rest : List Char) (j : Nat) (h : emailDotOk rest j = true) :
    ∃ c, rest.get? (j + 1) = some c ∧ c.isAlpha = true := by
  unfold emailDotOk at h
  simp only [Bool.and_eq_true] at h
  have h2 := h.1.2
  cases hg : rest.get? (j + 1) with
  | none =>
    rw [hg] at h2
    exact Bool.noConfusion h2
  | some c =>
    rw [hg] at h2
    exact ⟨c, rfl, h2⟩

theorem emailDotOk_alpha2 (rest : List Char) (j : Nat) (h : emailDotOk rest j = true) :
    ∃ c, rest.get? (j + 2) = some c ∧ c.isAlpha = true := by
  unfold emailDotOk at h
  simp only [Bool.and_eq_true] at h
  have h2 := h.2
  cases hg : rest.get? (j + 2) with
  | none =>
    rw [hg] at h2
    exact Bool.noConfusion h2
  | some c =>
    rw [hg] at h2
    exact ⟨c, rfl, h2⟩

theorem matchAtEmail_parts (cs : List Char) (n : Nat) (h : matchAtEmail cs = some n) :
    countWhile emailLocalCh cs ≠ 0 ∧
    cs.get? (countWhile emailLocalCh cs) = some '@' ∧
    ∃ j, emailDotSearch (cs.drop (countWhile emailLocalCh cs + 1))
        (countWhile emailDomainCh (cs.drop (countWhile emailLocalCh cs + 1))) = some j ∧
      n = countWhile emailLocalCh cs + 1 + j + 1 +
        countWhile Char.isAlpha ((cs.drop (countWhile emailLocalCh cs + 1)).drop (j + 1)) := by
  simp only [matchAtEmail] at h
  split at h
  · exact Option.noConfusion h
  · rename_i hk
    split at h
    · rename_i heq
      split at h
      · exact Option.noConfusion h
      · rename_i j hds
        injection h with h'
        exact ⟨hk, heq, j, hds, h'.symm⟩
    · exact Option.noConfusion h

theorem matchAtEmail_eq_of (cs : List Char) (k j : Nat)
    (hk : countWhile emailLocalCh cs = k) (hk0 : k ≠ 0)
    (hat : cs.get? k = some '@')
    (hds : emailDotSearch (cs.drop (k + 1))
      (countWhile emailDomainCh (cs.drop (k + 1))) = some j) :
    matchAtEmail cs =
      some (k + 1 + j + 1 + countWhile Char.isAlpha ((cs.drop (k + 1)).drop (j + 1))) := by
  simp only [matchAtEmail, hk]
  rw [if_neg hk0, hat, hds]
  rfl

theorem matchAtEmail_pos : ∀ cs n, matchAtEmail cs = some n → 1 ≤ n ∧ n ≤ cs.length := by
  intro cs n h
  obtain ⟨hk0, hat, j, hds, hn⟩ := matchAtEmail_parts cs n h
  obtain ⟨hj1, hjb, hok⟩ := emailDotSearch_spec _ _ j hds
  have hdot := emailDotOk_dot _ j hok
  have hklt : countWhile emailLocalCh cs < cs.length := get?_some_lt cs _ '@' hat
  have hjlt : j < (cs.drop (countWhile emailLocalCh cs + 1)).length := get?_some_lt _ j '.' hdot
  have hrl : (cs.drop (countWhile emailLocalCh cs + 1)).length =
      cs.length - (countWhile emailLocalCh cs + 1) := by simp
  have hlet : countWhile Char.isAlpha
      ((cs.drop (countWhile emailLocalCh cs + 1)).drop (j + 1)) ≤
      (cs.drop (countWhile emailLocalCh cs + 1)).length - (j + 1) := by
    have h1 := countWhile_le_length Char.isAlpha
      ((cs.drop (countWhile emailLocalCh cs + 1)).drop (j + 1))
    rw [List.length_drop] at h1
    exact h1
  omega

theorem matchAtEmail_sound : ∀ cs n, matchAtEmail cs = some n → EWord (cs.take n) := by
  intro cs n h
  obtain ⟨hk0, hat, j, hds, hn⟩ := matchAtEmail_parts cs n h
  set k := countWhile emailLocalCh cs with hkdef
  obtain ⟨hj1, hjb, hok⟩ := emailDotSearch_spec _ _ j hds
  have hdot := emailDotOk_dot _ j hok
  obtain ⟨c1, hg1, hc1⟩ := emailDotOk_alpha1 _ j hok
  obtain ⟨c2, hg2, hc2⟩ := emailDotOk_alpha2 _ j hok
  set L := countWhile Char.isAlpha ((cs.drop (k + 1)).drop (j + 1)) with hLdef
  have hklt : k < cs.length := get?_some_lt cs k '@' hat
  have hjlt : j < (cs.drop (k + 1)).length := get?_some_lt _ j '.' hdot
  have hdropk : cs.drop k = '@' :: cs.drop (k + 1) := drop_eq_cons_of_get? cs k '@' hat
  have hdropj : (cs.drop (k + 1)).drop j = '.' :: (cs.drop (k + 1)).drop (j + 1) :=
    drop_eq_cons_of_get? _ j '.' hdot
  have hsplit : cs.take n = cs.take k ++ '@' ::
      ((cs.drop (k + 1)).take j ++ '.' :: ((cs.drop (k + 1)).drop (j + 1)).take L) := by
    have e : n = k + (j + (L + 1) + 1) := by omega
    rw [e, List.take_add, hdropk, List.take_succ_cons, List.take_add, hdropj,
      List.take_succ_cons]
  rw [hsplit]
  refine ⟨cs.take k, (cs.drop (k + 1)).take j, ((cs.drop (k + 1)).drop (j + 1)).take L,
    rfl, ?_, ?_, ?_, ?_, ?_, ?_⟩
  · intro hnil
    have hz : (cs.take k).length = 0 := by rw [hnil]; rfl
    rw [List.length_take] at hz
    omega
  · exact countWhile_take_le emailLocalCh cs k (le_of_eq hkdef)
  · intro hnil
    have hz : ((cs.drop (k + 1)).take j).length = 0 := by rw [hnil]; rfl
    rw [List.length_take] at hz
    omega
  · exact countWhile_take_le emailDomainCh _ j hjb
  · rw [List.length_take]
    have hL2 : 2 ≤ L := by
      rw [hLdef]
      apply countWhile_two
      · refine ⟨c1, ?_, hc1⟩
        rw [List.get?_drop, Nat.add_zero]
        exact hg1
      · refine ⟨c2, ?_, hc2⟩
        rw [List.get?_drop]
        exact hg2
    have hlen2 : j + 2 < (cs.drop (k + 1)).length := get?_some_lt _ _ c2 hg2
    have hdl : ((cs.drop (k + 1)).drop (j + 1)).length =
        (cs.drop (k + 1)).length - (j + 1) := by
      simp only [List.length_drop]
    omega
  · exact countWhile_take_le Char.isAlpha _ L (le_of_eq hLdef)

theorem emailLocalCh_at : emailLocalCh '@' = false := by decide

theorem matchAtEmail_complete : ∀ m cs, EWord m → ListPre m cs → matchAtEmail cs ≠ none := by
  intro m cs hw hpre
  obtain ⟨a, b, t, hm, hane, ha, hbne, hb, ht2, ht⟩ := hw
  obtain ⟨u, hu⟩ := hpre
  have hcs : cs = a ++ '@' :: (b ++ '.' :: (t ++ u)) := by
    rw [← hu, hm]
    simp
  have hpreA : ListPre a cs := ⟨'@' :: (b ++ '.' :: (t ++ u)), hcs.symm⟩
  have hge : a.length ≤ countWhile emailLocalCh cs := countWhile_pre_le _ a cs hpreA ha
  have hat : cs.get? a.length = some '@' := by
    rw [hcs]
    exact get?_append_self a '@' _
  have hle : countWhile emailLocalCh cs ≤ a.length :=
    countWhile_le_of_stop _ cs a.length '@' hat emailLocalCh_at
  have hkeq : countWhile emailLocalCh cs = a.length := le_antisymm hle hge
  have hk0 : a.length ≠ 0 := fun h0 => hane (List.length_eq_zero.1 h0)
  have hdrop : cs.drop (a.length + 1) = b ++ '.' :: (t ++ u) := by
    rw [hcs]
    exact drop_append_cons a '@' _
  obtain ⟨t0, t1, t', ht'⟩ : ∃ t0 t1 t', t = t0 :: t1 :: t' := by
    cases t with
    | nil => simp only [List.length_nil] at ht2; omega
    | cons x xs =>
      cases xs with
      | nil => simp only [List.length_cons, List.length_nil] at ht2; omega
      | cons y ys => exact ⟨x, y, ys, rfl⟩
  have hdotpos : (b ++ '.' :: (t ++ u)).get? b.length = some '.' := get?_append_self b '.' _
  have hg1 : (b ++ '.' :: (t ++ u)).get? (b.length + 1) = some t0 := by
    have hgen := get?_append_after b '.' (t ++ u) 0
    rw [Nat.zero_add] at hgen
    rw [hgen, ht']
    rfl
  have hg2 : (b ++ '.' :: (t ++ u)).get? (b.length + 2) = some t1 := by
    have hgen := get?_append_after b '.' (t ++ u) 1
    rw [show 1 + b.length + 1 = b.length + 2 from by omega] at hgen
    rw [hgen, ht']
    rfl
  have ht0a : t0.isAlpha = true := ht t0 (by rw [ht']; simp)
  have ht1a : t1.isAlpha = true := ht t1 (by rw [ht']; simp)
  have hok : emailDotOk (b ++ '.' :: (t ++ u)) b.length = true := by
    unfold emailDotOk
    rw [hdotpos, hg1, hg2]
    simp [ht0a, ht1a]
  have hblen1 : 1 ≤ b.length := by
    cases b with
    | nil => exact absurd rfl hbne
    | cons x xs => simp
  have hbbound : b.length ≤ countWhile emailDomainCh (b ++ '.' :: (t ++ u)) :=
    countWhile_pre_le _ b _ ⟨'.' :: (t ++ u), rfl⟩ hb
  have hds := emailDotSearch_ne_none (b ++ '.' :: (t ++ u)) _ b.length hblen1 hbbound hok
  cases hdse : emailDotSearch (b ++ '.' :: (t ++ u))
      (countWhile emailDomainCh (b ++ '.' :: (t ++ u))) with
  | none => exact absurd hdse hds
  | some j =>
    have heq := matchAtEmail_eq_of cs a.length j hkeq hk0 hat
      (by rw [hdrop]; exact hdse)
    rw [heq]
    exact fun hcon => Option.noConfusion hcon

theorem emailDomainCh_local (c : Char) (h : emailDomainCh c = true) : emailLocalCh c = true := by
  unfold emailDomainCh at h
  simp only [Bool.or_eq_true] at h
  rcases h with ((h | h) | h) | h
  · simp [emailLocalCh, h]
  · simp [emailLocalCh, h]
  · simp [emailLocalCh, h]
  · simp [emailLocalCh, h]

theorem eword_alpha : ∀ m, EWord m → ∀ c ∈ m, emailAlphaCh c = true := by
  intro m hw c hc
  obtain ⟨a, b, t, hm, _, ha, _, hb, _, ht⟩ := hw
  rw [hm] at hc
  simp only [List.mem_append, List.mem_cons] at hc
  rcases hc with hca | rfl | hcb | rfl | hct
  · simp [emailAlphaCh, ha c hca]
  · decide
  · simp [emailAlphaCh, emailDomainCh_local c (hb c hcb)]
  · decide
  · simp [emailAlphaCh, emailLocalCh, ht c hct]

theorem eword_ne_nil : ∀ m, EWord m → m ≠ [] := by
  intro m hw
  obtain ⟨a, b, t, hm, _, _, _, _, _, _⟩ := hw
  rw [hm]
  simp

theorem emailToken_ne_nil : emailToken ≠ [] := by decide

theorem emailToken_head_na : ∀ c, emailToken.head? = some c → emailAlphaCh c = false := by
  intro c h
  have h' : some '[' = some c := h
  have he : '[' = c := by injection h'
  rw [← he]
  decide

theorem emailToken_last_na : ∀ c, emailToken.getLast? = some c → emailAlphaCh c = false := by
  intro c h
  have h' : some ']' = some c := h
  have he : ']' = c := by injection h'
  rw [← he]
  decide

theorem eword_not_in_emailToken : ∀ m, EWord m → ¬ ListSub m emailToken := by
  intro m hw hsub
  obtain ⟨a, b, t, hm, _, _, _, _, _, _⟩ := hw
  have hat : '@' ∈ m := by rw [hm]; simp
  have hmem : '@' ∈ emailToken := listSub_mem m emailToken '@' hsub hat
  exact absurd hmem (by decide)

theorem eword_not_in_phoneToken : ∀ m, EWord m → ¬ ListSub m phoneToken := by
  intro m hw hsub
  obtain ⟨a, b, t, hm, _, _, _, _, _, _⟩ := hw
  have hat : '@' ∈ m := by rw [hm]; simp
  have hmem : '@' ∈ phoneToken := listSub_mem m phoneToken '@' hsub hat
  exact absurd hmem (by decide)

/-! ### The phone matcher: positivity, soundness, completeness (C8) -/

theorem digit_ne_plus (c : Char) (h : c.isDigit = true) : c ≠ '+' := by
  intro he
  rw [he] at h
  exact absurd h (by decide)

theorem digit_not_sep (c : Char) (h : c.isDigit = true) : phoneSepCh c = false := by
  by_contra hc
  rw [Bool.not_eq_false] at hc
  unfold phoneSepCh jsWsCh at hc
  simp only [Bool.or_eq_true, decide_eq_true_eq] at hc
  rcases hc with ((((((((((h1 | h1) | h1) | h1) | h1) | h1) | h1) | h1) | h1) | h1) | h1) <;>
    (rw [h1] at h; exact absurd h (by decide))

theorem notsep_of_head (c : Char) (h : c.isDigit = true ∨ c = '+') : phoneSepCh c = false := by
  rcases h with h | h
  · exact digit_not_sep c h
  · rw [h]
    decide

theorem phoneUnits_nil : phoneUnits [] = [] := by rw [phoneUnits]

theorem phoneUnits_plus_nil : phoneUnits ['+'] = [] := by rw [phoneUnits]

theorem phoneUnits_plus_nondigit (c : Char) (rest2 : List Char) (h : c.isDigit = false) :
    phoneUnits ('+' :: c :: rest2) = [] := by
  cases rest2 with
  | nil =>
    rw [phoneUnits.eq_4]
    simp [h]
  | cons s rest3 =>
    rw [phoneUnits.eq_3]
    simp [h]

theorem phoneUnits_plus_digit_nil (c : Char) (h : c.isDigit = true) :
    phoneUnits ['+', c] = [(2, false)] := by
  rw [phoneUnits.eq_4]
  simp [h]

theorem phoneUnits_plus_digit_sep (c s : Char) (rest3 : List Char) (hc : c.isDigit = true)
    (hs : phoneSepCh s = true) :
    phoneUnits ('+' :: c :: s :: rest3) = (3, false) :: phoneUnits rest3 := by
  rw [phoneUnits.eq_3]
  simp [hc, hs]

theorem phoneUnits_plus_digit_nosep (c s : Char) (rest3 : List Char) (hc : c.isDigit = true)
    (hs : phoneSepCh s = false) :
    phoneUnits ('+' :: c :: s :: rest3) = (2, false) :: phoneUnits (s :: rest3) := by
  rw [phoneUnits.eq_3]
  simp [hc, hs]

theorem phoneUnits_nondigit (c : Char) (rest : List Char) (hp : c ≠ '+')
    (h : c.isDigit = false) : phoneUnits (c :: rest) = [] := by
  cases rest with
  | nil =>
    rw [phoneUnits.eq_6 c (fun he => hp he)]
    simp [h]
  | cons s rest2 =>
    rw [phoneUnits.eq_5 c s rest2 (fun he => hp he)]
    simp [h]

theorem phoneUnits_digit_nil (c : Char) (hp : c ≠ '+') (hc : c.isDigit = true) :
    phoneUnits [c] = [(1, true)] := by
  rw [phoneUnits.eq_6 c (fun he => hp he)]
  simp [hc]

theorem phoneUnits_digit_sep (c s : Char) (rest2 : List Char) (hp : c ≠ '+')
    (hc : c.isDigit = true) (hs : phoneSepCh s = true) :
    phoneUnits (c :: s :: rest2) = (2, true) :: phoneUnits rest2 := by
  rw [phoneUnits.eq_5 c s rest2 (fun he => hp he)]
  simp [hc, hs]

theorem phoneUnits_digit_nosep (c s : Char) (rest2 : List Char) (hp : c ≠ '+')
    (hc : c.isDigit = true) (hs : phoneSepCh s = false) :
    phoneUnits (c :: s :: rest2) = (1, true) :: phoneUnits (s :: rest2) := by
  rw [phoneUnits.eq_5 c s rest2 (fun he => hp he)]
  simp [hc, hs]

theorem phoneUnits_fit : ∀ cs : List Char, UnitsFit cs (phoneUnits cs) := by
  have H : ∀ (N : Nat) (cs : List Char), cs.length ≤ N → UnitsFit cs (phoneUnits cs) := by
    intro N
    induction N with
    | zero =>
      intro cs hN
      have hnil : cs = [] := List.length_eq_zero.1 (Nat.le_zero.1 hN)
      subst hnil
      rw [phoneUnits_nil]
      trivial
    | succ N ih =>
      intro cs hN
      cases cs with
      | nil =>
        rw [phoneUnits_nil]
        trivial
      | cons c rest =>
        by_cases hp : c = '+'
        · subst hp
          cases rest with
          | nil =>
            rw [phoneUnits_plus_nil]
            trivial
          | cons c2 rest2 =>
            cases hd : c2.isDigit
            · rw [phoneUnits_plus_nondigit c2 rest2 hd]
              trivial
            · cases rest2 with
              | nil =>
                rw [phoneUnits_plus_digit_nil c2 hd]
                exact ⟨['+', c2], [], rfl, rfl, Or.inr (Or.inr (Or.inl ⟨c2, rfl, hd⟩)),
                  fun hfalse => Bool.noConfusion hfalse, trivial⟩
              | cons s rest3 =>
                cases hs : phoneSepCh s
                · rw [phoneUnits_plus_digit_nosep c2 s rest3 hd hs]
                  exact ⟨['+', c2], s :: rest3, rfl, rfl,
                    Or.inr (Or.inr (Or.inl ⟨c2, rfl, hd⟩)),
                    fun hfalse => Bool.noConfusion hfalse,
                    ih (s :: rest3) (by simp at hN ⊢; omega)⟩
                · rw [phoneUnits_plus_digit_sep c2 s rest3 hd hs]
                  exact ⟨['+', c2, s], rest3, rfl, rfl,
                    Or.inr (Or.inr (Or.inr ⟨c2, s, rfl, hd, hs⟩)),
                    fun hfalse => Bool.noConfusion hfalse,
                    ih rest3 (by simp at hN; omega)⟩
        · cases hd : c.isDigit
          · rw [phoneUnits_nondigit c rest hp hd]
            trivial
          · cases rest with
            | nil =>
              rw [phoneUnits_digit_nil c hp hd]
              exact ⟨[c], [], rfl, rfl, Or.inl ⟨c, rfl, hd⟩,
                fun _ => ⟨c, [], rfl, hd⟩, trivial⟩
            | cons s rest2 =>
              cases hs : phoneSepCh s
              · rw [phoneUnits_digit_nosep c s rest2 hp hd hs]
                exact ⟨[c], s :: rest2, rfl, rfl, Or.inl ⟨c, rfl, hd⟩,
                  fun _ => ⟨c, [], rfl, hd⟩,
                  ih (s :: rest2) (by simp at hN ⊢; omega)⟩
              · rw [phoneUnits_digit_sep c s rest2 hp hd hs]
                exact ⟨[c, s], rest2, rfl, rfl, Or.inr (Or.inl ⟨c, s, rfl, hd, hs⟩),
                  fun _ => ⟨c, [s], rfl, hd⟩,
                  ih rest2 (by simp at hN; omega)⟩
  exact fun cs => H cs.length cs (le_refl _)

theorem phoneCandidates_bound : ∀ (us : List (Nat × Bool)) (cs : List Char) (j acc : Nat),
    UnitsFit cs us → ∀ n ∈ phoneCandidates us j acc, 1 ≤ n ∧ n ≤ acc + cs.length := by
  intro us
  induction us with
  | nil =>
    intro cs j acc _ n hn
    simp [phoneCandidates] at hn
  | cons u us' ih =>
    intro cs j acc hfit n hn
    obtain ⟨len, d⟩ := u
    obtain ⟨g, rest, hcs, hglen, hgroup, _, hfit'⟩ := hfit
    have hg1 : 1 ≤ g.length := by
      rcases hgroup with ⟨d', he, _⟩ | ⟨d', s, he, _, _⟩ | ⟨d', he, _⟩ | ⟨d', s, he, _, _⟩ <;>
        (subst he; simp)
    have hlen : cs.length = g.length + rest.length := by rw [hcs]; simp
    rw [show phoneCandidates ((len, d) :: us') j acc =
      (if 8 ≤ j && d then [acc + 1] else []) ++
        phoneCandidates us' (j + 1) (acc + len) from rfl] at hn
    rcases List.mem_append.1 hn with h1 | h2
    · cases hb : (decide (8 ≤ j) && d)
      · simp [hb] at h1
      · simp [hb] at h1
        subst h1
        exact ⟨by omega, by omega⟩
    · obtain ⟨ha, hbnd⟩ := ih rest (j + 1) (acc + len) hfit' n h2
      exact ⟨ha, by omega⟩

theorem matchAtPhone_pos : ∀ cs n, matchAtPhone cs = some n → 1 ≤ n ∧ n ≤ cs.length := by
  intro cs n h
  have hmem : n ∈ phoneCandidates (phoneUnits cs) 1 0 := natList_getLast?_mem _ n h
  have hb := phoneCandidates_bound (phoneUnits cs) cs 1 0 (phoneUnits_fit cs) n hmem
  simpa using hb

theorem phoneCandidates_sound : ∀ (us : List (Nat × Bool)) (cs : List Char) (j acc : Nat)
    (gsPre : List (List Char)), UnitsFit cs us → gsPre.length + 1 = j →
    (∀ g ∈ gsPre, IsGroup g) → acc = gsPre.flatten.length →
    ∀ n ∈ phoneCandidates us j acc, PWord ((gsPre.flatten ++ cs).take n) := by
  intro us
  induction us with
  | nil =>
    intro cs j acc gsPre _ _ _ _ n hn
    simp [phoneCandidates] at hn
  | cons u us' ih =>
    intro cs j acc gsPre hfit hj hgs hacc n hn
    obtain ⟨len, d⟩ := u
    obtain ⟨g, rest, hcs, hglen, hgroup, hflag, hfit'⟩ := hfit
    rw [show phoneCandidates ((len, d) :: us') j acc =
      (if 8 ≤ j && d then [acc + 1] else []) ++
        phoneCandidates us' (j + 1) (acc + len) from rfl] at hn
    rcases List.mem_append.1 hn with h1 | h2
    · cases hb : (decide (8 ≤ j) && d)
      · simp [hb] at h1
      · simp [hb] at h1
        subst h1
        have hcond := hb
        simp only [Bool.and_eq_true, decide_eq_true_eq] at hcond
        obtain ⟨hj8, hd⟩ := hcond
        obtain ⟨d0, gtail, hg0, hd0⟩ := hflag hd
        have htake : (gsPre.flatten ++ cs).take (acc + 1) = gsPre.flatten ++ [d0] := by
          rw [show acc + 1 = 1 + gsPre.flatten.length from by omega]
          rw [take_append_len]
          congr 1
          rw [hcs, hg0]
          rfl
        rw [htake]
        exact ⟨gsPre, d0, rfl, hd0, by omega, hgs⟩
    · have hgs' : ∀ g' ∈ gsPre ++ [g], IsGroup g' := by
        intro g' hg'
        rcases List.mem_append.1 hg' with hmem | hmem
        · exact hgs g' hmem
        · have he : g' = g := by simpa using hmem
          rw [he]
          exact hgroup
      have hglen' : g.length = len := hglen
      have hstep := ih rest (j + 1) (acc + len) (gsPre ++ [g]) hfit'
        (by simp only [List.length_append, List.length_singleton]; omega) hgs'
        (by
          simp only [List.flatten_append, List.length_append, List.flatten_cons,
            List.flatten_nil, List.append_nil]
          omega)
        n h2
      have heq : (gsPre ++ [g]).flatten ++ rest = gsPre.flatten ++ cs := by
        rw [hcs]
        simp [List.flatten_append]
      rw [heq] at hstep
      exact hstep

theorem matchAtPhone_sound : ∀ cs n, matchAtPhone cs = some n → PWord (cs.take n) := by
  intro cs n h
  have hmem : n ∈ phoneCandidates (phoneUnits cs) 1 0 := natList_getLast?_mem _ n h
  have hs := phoneCandidates_sound (phoneUnits cs) cs 1 0 [] (phoneUnits_fit cs) rfl
    (fun g hg => absurd hg (List.not_mem_nil g)) rfl n hmem
  simpa using hs

theorem isGroup_head (g : List Char) (h : IsGroup g) :
    ∃ x tl, g = x :: tl ∧ (x.isDigit = true ∨ x = '+') := by
  rcases h with ⟨d, he, hd⟩ | ⟨d, s, he, hd, _⟩ | ⟨d, he, _⟩ | ⟨d, s, he, _, _⟩
  · exact ⟨d, [], he, Or.inl hd⟩
  · exact ⟨d, [s], he, Or.inl hd⟩
  · exact ⟨'+', [d], he, Or.inr rfl⟩
  · exact ⟨'+', [d, s], he, Or.inr rfl⟩

theorem phoneUnits_group_align (g : List Char) (r : Char) (rs : List Char) (hg : IsGroup g)
    (hr : r.isDigit = true ∨ r = '+') :
    ∃ flag, phoneUnits (g ++ r :: rs) = (g.length, flag) :: phoneUnits (r :: rs) ∧
      (flag = true → ∃ d tl, g = d :: tl ∧ d.isDigit = true) := by
  have hrsep : phoneSepCh r = false := notsep_of_head r hr
  rcases hg with ⟨d, he, hd⟩ | ⟨d, s, he, hd, hs⟩ | ⟨d, he, hd⟩ | ⟨d, s, he, hd, hs⟩
  · subst he
    refine ⟨true, ?_, fun _ => ⟨d, [], rfl, hd⟩⟩
    show phoneUnits (d :: r :: rs) = (1, true) :: phoneUnits (r :: rs)
    exact phoneUnits_digit_nosep d r rs (digit_ne_plus d hd) hd hrsep
  · subst he
    refine ⟨true, ?_, fun _ => ⟨d, [s], rfl, hd⟩⟩
    show phoneUnits (d :: s :: r :: rs) = (2, true) :: phoneUnits (r :: rs)
    exact phoneUnits_digit_sep d s (r :: rs) (digit_ne_plus d hd) hd hs
  · subst he
    refine ⟨false, ?_, fun hfalse => Bool.noConfusion hfalse⟩
    show phoneUnits ('+' :: d :: r :: rs) = (2, false) :: phoneUnits (r :: rs)
    exact phoneUnits_plus_digit_nosep d r rs hd hrsep
  · subst he
    refine ⟨false, ?_, fun hfalse => Bool.noConfusion hfalse⟩
    show phoneUnits ('+' :: d :: s :: r :: rs) = (3, false) :: phoneUnits (r :: rs)
    exact phoneUnits_plus_digit_sep d s (r :: rs) hd hs

theorem phoneUnits_flatten_align : ∀ (gs : List (List Char)) (d : Char) (u : List Char),
    (∀ g ∈ gs, IsGroup g) → d.isDigit = true →
    ∃ us', us'.length = gs.length ∧
      phoneUnits (gs.flatten ++ d :: u) = us' ++ phoneUnits (d :: u) := by
  intro gs
  induction gs with
  | nil =>
    intro d u _ _
    exact ⟨[], rfl, rfl⟩
  | cons g gs' ih =>
    intro d u hgs hd
    obtain ⟨us', hlen, hu⟩ := ih d u (fun g' hmem => hgs g' (List.mem_cons_of_mem g hmem)) hd
    obtain ⟨r, rs, hrw, hr⟩ : ∃ r rs, gs'.flatten ++ d :: u = r :: rs ∧
        (r.isDigit = true ∨ r = '+') := by
      cases hgse : gs' with
      | nil => exact ⟨d, u, rfl, Or.inl hd⟩
      | cons g2 gs2 =>
        obtain ⟨x, tl, hx, hxk⟩ := isGroup_head g2 (hgs g2 (by rw [hgse]; simp))
        refine ⟨x, tl ++ (gs2.flatten ++ d :: u), ?_, hxk⟩
        show (g2 ++ gs2.flatten) ++ d :: u = x :: (tl ++ (gs2.flatten ++ d :: u))
        rw [hx]
        simp
    obtain ⟨flag, heq, _⟩ := phoneUnits_group_align g r rs (hgs g (List.mem_cons_self g gs')) hr
    refine ⟨(g.length, flag) :: us', by simp [hlen], ?_⟩
    have h1 : (g :: gs').flatten ++ d :: u = g ++ (r :: rs) := by
      rw [← hrw]
      simp
    rw [h1, heq, ← hrw, hu]
    rfl

theorem phoneUnits_digit_head (d : Char) (u : List Char) (hd : d.isDigit = true) :
    ∃ l0 more, phoneUnits (d :: u) = (l0, true) :: more := by
  have hdp : d ≠ '+' := digit_ne_plus d hd
  cases u with
  | nil => exact ⟨1, [], phoneUnits_digit_nil d hdp hd⟩
  | cons s u' =>
    cases hs : phoneSepCh s
    · exact ⟨1, phoneUnits (s :: u'), phoneUnits_digit_nosep d s u' hdp hd hs⟩
    · exact ⟨2, phoneUnits u', phoneUnits_digit_sep d s u' hdp hd hs⟩

theorem phoneCandidates_ne_nil : ∀ (us1 : List (Nat × Bool)) (len : Nat)
    (us2 : List (Nat × Bool)) (j acc : Nat), 8 ≤ j + us1.length →
    phoneCandidates (us1 ++ (len, true) :: us2) j acc ≠ [] := by
  intro us1
  induction us1 with
  | nil =>
    intro len us2 j acc hj
    show ((if 8 ≤ j && true then [acc + 1] else []) ++
      phoneCandidates us2 (j + 1) (acc + len)) ≠ []
    have hc : (decide (8 ≤ j) && true) = true := by
      simp only [Bool.and_true]
      exact decide_eq_true (by simpa using hj)
    simp [hc]
  | cons u us1' ih =>
    intro len us2 j acc hj
    obtain ⟨l, b⟩ := u
    show ((if 8 ≤ j && b then [acc + 1] else []) ++
      phoneCandidates (us1' ++ (len, true) :: us2) (j + 1) (acc + l)) ≠ []
    intro hnil
    rcases List.append_eq_nil.1 hnil with ⟨_, h2⟩
    exact ih len us2 (j + 1) (acc + l) (by simp at hj ⊢; omega) h2

theorem matchAtPhone_complete : ∀ m cs, PWord m → ListPre m cs → matchAtPhone cs ≠ none := by
  intro m cs hw hpre
  obtain ⟨gs, d, hm, hd, h7, hgs⟩ := hw
  obtain ⟨u, hu⟩ := hpre
  have hcs : cs = gs.flatten ++ d :: u := by
    rw [← hu, hm]
    simp
  obtain ⟨us', hlen, hunits⟩ := phoneUnits_flatten_align gs d u hgs hd
  obtain ⟨l0, more, hhead⟩ := phoneUnits_digit_head d u hd
  have hcand : phoneCandidates (phoneUnits cs) 1 0 ≠ [] := by
    rw [hcs, hunits, hhead]
    exact phoneCandidates_ne_nil us' l0 more 1 0 (by omega)
  obtain ⟨a, ha⟩ := natList_exists_getLast? _ hcand
  intro hnone
  rw [show matchAtPhone cs = (phoneCandidates (phoneUnits cs) 1 0).getLast? from rfl,
    ha] at hnone
  exact Option.noConfusion hnone

theorem pword_alpha : ∀ m, PWord m → ∀ c ∈ m, phoneAlphaCh c = true := by
  intro m hw c hc
  obtain ⟨gs, d, hm, hd, _, hgs⟩ := hw
  rw [hm] at hc
  simp only [List.mem_append, List.mem_singleton] at hc
  rcases hc with hcf | rfl
  · obtain ⟨g, hg, hcg⟩ := List.mem_flatten.1 hcf
    rcases hgs g hg with ⟨d', he, hd'⟩ | ⟨d', s, he, hd', hs⟩ | ⟨d', he, hd'⟩ |
      ⟨d', s, he, hd', hs⟩ <;> subst he
    · have : c = d' := by simpa using hcg
      rw [this]
      simp [phoneAlphaCh, hd']
    · rcases (by simpa using hcg : c = d' ∨ c = s) with rfl | rfl
      · simp [phoneAlphaCh, hd']
      · simp [phoneAlphaCh, hs]
    · rcases (by simpa using hcg : c = '+' ∨ c = d') with rfl | rfl
      · decide
      · simp [phoneAlphaCh, hd']
    · rcases (by simpa using hcg : c = '+' ∨ c = d' ∨ c = s) with rfl | rfl | rfl
      · decide
      · simp [phoneAlphaCh, hd']
      · simp [phoneAlphaCh, hs]
  · simp [phoneAlphaCh, hd]

theorem pword_ne_nil : ∀ m, PWord m → m ≠ [] := by
  intro m hw
  obtain ⟨gs, d, hm, _, _, _⟩ := hw
  rw [hm]
  simp

theorem phoneToken_ne_nil : phoneToken ≠ [] := by decide

theorem phoneToken_head_npa : ∀ c, phoneToken.head? = some c → phoneAlphaCh c = false := by
  intro c h
  have h' : some '[' = some c := h
  have he : '[' = c := by injection h'
  rw [← he]
  decide

theorem phoneToken_last_npa : ∀ c, phoneToken.getLast? = some c → phoneAlphaCh c = false := by
  intro c h
  have h' : some ']' = some c := h
  have he : ']' = c := by injection h'
  rw [← he]
  decide

theorem phoneToken_head_nea : ∀ c, phoneToken.head? = some c → emailAlphaCh c = false := by
  intro c h
  have h' : some '[' = some c := h
  have he : '[' = c := by injection h'
  rw [← he]
  decide

theorem phoneToken_last_nea : ∀ c, phoneToken.getLast? = some c → emailAlphaCh c = false := by
  intro c h
  have h' : some ']' = some c := h
  have he : ']' = c := by injection h'
  rw [← he]
  decide

theorem pword_not_in_phoneToken : ∀ m, PWord m → ¬ ListSub m phoneToken := by
  intro m hw hsub
  obtain ⟨gs, d, hm, hd, _, _⟩ := hw
  have hdm : d ∈ m := by rw [hm]; simp
  have hmem : d ∈ phoneToken := listSub_mem m phoneToken d hsub hdm
  have hno : ∀ c ∈ phoneToken, c.isDigit = false := by decide
  rw [hno d hmem] at hd
  exact Bool.noConfusion hd

/-! ### Redaction idempotence: assembly (C8) -/

theorem email_noOcc (cs : List Char) :
    ∀ m, EWord m → ¬ ListSub m (replaceAll matchAtEmail emailToken cs) :=
  replaceAll_noOcc matchAtEmail emailToken EWord emailAlphaCh
    matchAtEmail_pos matchAtEmail_complete eword_alpha eword_ne_nil
    emailToken_ne_nil emailToken_head_na emailToken_last_na
    eword_not_in_emailToken cs

theorem phone_noOcc (cs : List Char) :
    ∀ m, PWord m → ¬ ListSub m (replaceAll matchAtPhone phoneToken cs) :=
  replaceAll_noOcc matchAtPhone phoneToken PWord phoneAlphaCh
    matchAtPhone_pos matchAtPhone_complete pword_alpha pword_ne_nil
    phoneToken_ne_nil phoneToken_head_npa phoneToken_last_npa
    pword_not_in_phoneToken cs

theorem email_noOcc_preserved (t : List Char)
    (h : ∀ m, EWord m → ¬ ListSub m t) :
    ∀ m, EWord m → ¬ ListSub m (replaceAll matchAtPhone phoneToken t) :=
  replaceAll_preserve matchAtPhone phoneToken EWord emailAlphaCh
    matchAtPhone_pos eword_alpha eword_ne_nil phoneToken_ne_nil
    phoneToken_head_nea phoneToken_last_nea eword_not_in_phoneToken t h

/-- One email-then-phone replacement pass leaves a string with no email
match and no phone match, so a second pass is the identity. -/
theorem redactStr_idem (s : String) : redactStr (redactStr s) = redactStr s := by
  have hE2 : ∀ m, EWord m → ¬ ListSub m
      (replaceAll matchAtPhone phoneToken (replaceAll matchAtEmail emailToken s.data)) :=
    email_noOcc_preserved _ (email_noOcc s.data)
  have hP2 : ∀ m, PWord m → ¬ ListSub m
      (replaceAll matchAtPhone phoneToken (replaceAll matchAtEmail emailToken s.data)) :=
    phone_noOcc _
  show String.mk (replaceAll matchAtPhone phoneToken (replaceAll matchAtEmail emailToken
      (replaceAll matchAtPhone phoneToken (replaceAll matchAtEmail emailToken s.data)))) =
    String.mk (replaceAll matchAtPhone phoneToken (replaceAll matchAtEmail emailToken s.data))
  rw [replaceAll_fix matchAtEmail emailToken EWord matchAtEmail_pos matchAtEmail_sound _ hE2,
    replaceAll_fix matchAtPhone phoneToken PWord matchAtPhone_pos matchAtPhone_sound _ hP2]

theorem redactMetaEntry_idem (fields : List String) (kv : String × Json) :
    redactMetaEntry fields (redactMetaEntry fields kv) = redactMetaEntry fields kv := by
  obtain ⟨k, v⟩ := kv
  by_cases hk : k ∈ fields
  · simp [redactMetaEntry, hk]
  · cases v <;> simp [redactMetaEntry, hk, redactStr_idem]

theorem map_redactMetaEntry_idem (fields : List String) : ∀ ms : List (String × Json),
    (ms.map (redactMetaEntry fields)).map (redactMetaEntry fields) =
      ms.map (redactMetaEntry fields) := by
  intro ms
  induction ms with
  | nil => rfl
  | cons kv ms' ih => simp [redactMetaEntry_idem fields kv, ih]

theorem redactTop_idem (fields : List String) (kv : String × Json) :
    redactTop fields (redactTop fields kv) = redactTop fields kv := by
  obtain ⟨k, v⟩ := kv
  by_cases h1 : k = "meta"
  · subst h1
    cases v <;> simp [redactTop, map_redactMetaEntry_idem]
    exact fun a b _ => redactMetaEntry_idem fields (a, b)
  · by_cases h2 : k = "input"
    · subst h2
      cases v <;> simp [redactTop, show ("input" : String) ≠ "meta" from by decide,
        redactStr_idem]
    · by_cases h3 : k = "attachments_snapshot"
      · subst h3
        cases v <;> simp [redactTop,
          show ("attachments_snapshot" : String) ≠ "meta" from by decide,
          show ("attachments_snapshot" : String) ≠ "input" from by decide,
          redactStr_idem]
      · simp [redactTop, h1, h2, h3]

theorem map_redactTop_idem (fields : List String) : ∀ kvs : List (String × Json),
    (kvs.map (redactTop fields)).map (redactTop fields) = kvs.map (redactTop fields) := by
  intro kvs
  induction kvs with
  | nil => rfl
  | cons kv kvs' ih => simp [redactTop_idem fields kv, ih]

/-- C8: the receipt redaction is idempotent — for every redaction-enabled
flag, allowlist of meta fields and payload JSON value, applying
`maybeRedact` twice yields the same value as applying it once (the email
substitution, the phone substitution and the meta-allowlist substitution
each leave no further matches for a second pass to rewrite). -/
theorem maybeRedact_idempotent (enabled : Bool) (fields : List String) (j : Json) :
    maybeRedact enabled fields (maybeRedact enabled fields j) =
      maybeRedact enabled fields j := by
  cases enabled
  · simp [maybeRedact]
  · cases j with
    | obj kvs =>
      simp [maybeRedact, map_redactTop_idem]
      exact fun a b _ => redactTop_idem fields (a, b)
    | null => simp [maybeRedact]
    | bool b => simp [maybeRedact]
    | num n => simp [maybeRedact]
    | str s => simp [maybeRedact]
    | arr xs => simp [maybeRedact]

/-- C7 counterexample: with window `N = 0` the query returns `null` even
though a trace for the model exists, so "null if and only if no trace row
exists" fails as stated for every window. -/
theorem p95LatencyFor_counterexample :
    p95LatencyFor
      [{ id := "t1", user_ref := none, policy := "p", route_primary := "A",
         route_final := "A", latency_ms := 100, tokens := 0,
         cost_usd := { mantissa := 0, exp10 := 0 } }] "A" 0 = none ∧
    tracesFor
      [{ id := "t1", user_ref := none, policy := "p", route_primary := "A",
         route_final := "A", latency_ms := 100, tokens := 0,
         cost_usd := { mantissa := 0, exp10 := 0 } }] "A" ≠ [] := by
  refine ⟨rfl, ?_⟩
  intro h
  simp [tracesFor] at h

end RoutePilot
